import Mathlib

/-!
# Verification of `lockfree::spsc_queue` (lockfree/spsc_queue.hpp)

A shallow embedding of the single-producer / single-consumer queue from
`lockfree/spsc_queue.hpp`.  Nodes live in an explicit heap (an association
list from addresses to nodes); each node holds an optional `data` value
(`some v` when `T` is constructed in the slot, `none` when the slot is raw
or destroyed) and a `next` pointer (`none` models `nullptr`).  The queue
state carries the four structural pointers (`tail_`, `before_head_`,
`cache_tail_`, `cache_head_`) plus allocator bookkeeping (a fresh-address
counter and allocate/deallocate call counts).

Throwing `T`-constructors are modelled by passing `Option α` to the
producer operations: `none` means "construction of `T` from these
arguments throws", `some v` means it produces `v`.  Operations additionally
return a trace of allocator and atomic-store events, used to state the
claims about allocation counts and the order of `before_head` stores.
-/

set_option autoImplicit false

namespace Lockfree

universe u

variable {α : Type u}

/-- One linked-list node of `spsc_queue`: `data` is `some v` iff a `T` value
is currently constructed in the slot; `next` is the atomic next pointer
(`none` models `nullptr`). -/
structure Node (α : Type u) where
  data : Option α
  next : Option Nat
  deriving Repr, DecidableEq

/-- The node heap: an association list from addresses to nodes. -/
abbrev Heap (α : Type u) := List (Nat × Node α)

/-- Look an address up in the heap (first matching entry). -/
def hget : Heap α → Nat → Option (Node α)
  | [], _ => none
  | (b, n) :: t, a => if a = b then some n else hget t a

/-- Overwrite the node stored at an address (no-op on absent addresses). -/
def hset : Heap α → Nat → Node α → Heap α
  | [], _, _ => []
  | (b, m) :: t, a, n => if b = a then (a, n) :: hset t a n else (b, m) :: hset t a n

/-- Remove an address from the heap (models `deallocate`). -/
def hdel : Heap α → Nat → Heap α
  | [], _ => []
  | (b, m) :: t, a => if b = a then hdel t a else (b, m) :: hdel t a

/-- The list of allocated addresses. -/
def keys (h : Heap α) : List Nat :=
  h.map Prod.fst

/-- The `data` field at an address (`none` when raw, destroyed or absent). -/
def dataAt (h : Heap α) (a : Nat) : Option α :=
  match hget h a with
  | some n => n.data
  | none => none

/-- The `next` field at an address (`none` when null or absent). -/
def nextAt (h : Heap α) (a : Nat) : Option Nat :=
  match hget h a with
  | some n => n.next
  | none => none

/-- The whole state of an `spsc_queue`: the heap, the allocator bookkeeping
(fresh-address counter, allocate and deallocate call counts) and the four
structural pointers of the queue. -/
structure QState (α : Type u) where
  heap : Heap α
  fresh : Nat
  allocCount : Nat
  deallocCount : Nat
  tail : Nat
  before_head : Nat
  cache_tail : Nat
  cache_head : Nat
  deriving Repr, DecidableEq

/-- Events recorded by the operations: allocator calls (`allocE`,
`deallocE`, `constructE`, `destroyE`), the consumer's release store to
`before_head_` (`storeBH`), the producer's release store to `tail_->next`
(`storeTailNext`), the relaxed `next` stores linking a private insert chain
(`linkRelaxed`), and `consume_all`'s invocation of the user function on the
node at an address (`invokeE`). -/
inductive Ev where
  | allocE (a : Nat)
  | deallocE (a : Nat)
  | constructE (a : Nat)
  | destroyE (a : Nat)
  | storeBH (a : Nat)
  | storeTailNext (a : Nat)
  | linkRelaxed (src dst : Nat)
  | invokeE (a : Nat)
  deriving Repr, DecidableEq

/-- Allocate a fresh node (raw storage: no `data`, `next` unconstructed,
modelled as `none`); increments the allocator's allocate count. -/
def allocNode (s : QState α) : QState α × Nat :=
  ({ s with
      heap := (s.fresh, ⟨none, none⟩) :: s.heap
      fresh := s.fresh + 1
      allocCount := s.allocCount + 1 }, s.fresh)

/-- Return a node to the allocator; increments the deallocate count. -/
def deallocNode (s : QState α) (a : Nat) : QState α :=
  { s with heap := hdel s.heap a, deallocCount := s.deallocCount + 1 }

/-- `allocator_traits::construct` / `destroy` on a node's `data` slot. -/
def setData (s : QState α) (a : Nat) (d : Option α) : QState α :=
  match hget s.heap a with
  | some n => { s with heap := hset s.heap a { n with data := d } }
  | none => s

/-- Store into a node's `next` field. -/
def setNext (s : QState α) (a : Nat) (nx : Option Nat) : QState α :=
  match hget s.heap a with
  | some n => { s with heap := hset s.heap a { n with next := nx } }
  | none => s

/-- The queue constructor: allocate the single sentinel node, construct its
`next` as null, do not construct its `data`, and point all four pointers at
it. -/
def initState : QState α :=
  { heap := [(0, ⟨none, none⟩)]
    fresh := 1
    allocCount := 1
    deallocCount := 0
    tail := 0
    before_head := 0
    cache_tail := 0
    cache_head := 0 }

/-- `head_()`: load `before_head_` and return its `next` (the real front,
or `none` when the queue is empty). -/
def headAddr (s : QState α) : Option Nat :=
  nextAt s.heap s.before_head

/-- `empty()`: true iff `head_() == nullptr`. -/
def empty (s : QState α) : Bool :=
  (headAddr s).isNone

/-- The cache-refill step of `make_node_`: when `cache_tail_` has caught up
with `cache_head_`, re-read `before_head_` (consume load) into it;
otherwise keep it. -/
def refillCT (s : QState α) : Nat :=
  if s.cache_tail = s.cache_head then s.before_head else s.cache_tail

/-- `make_node_(args...)`.  The argument `v : Option α` models the
`T`-construction from `args`: `none` means the construction throws.  The
result is the state after the call, the allocator/trace events, and
`some x` (the produced node) on success or `none` when the construction
threw and the exception propagates. -/
def make_node (s : QState α) (v : Option α) : QState α × List Ev × Option Nat :=
  let x := s.cache_head
  let s := { s with cache_tail := refillCT s }
  if s.cache_tail ≠ x then
    -- Recycle a cached node.
    match v with
    | none => (s, [], none)
    | some val =>
        let s := setData s x (some val)
        -- Remove our node from the cache (advance cache_head to x->next).
        let s := { s with cache_head := (nextAt s.heap x).getD 0 }
        let s := setNext s x none
        (s, [Ev.constructE x], some x)
  else
    -- Node cache is empty, so allocate and construct a new node.
    let (s, x) := allocNode s
    match v with
    | none => (deallocNode s x, [Ev.allocE x, Ev.deallocE x], none)
    | some val =>
        let s := setData s x (some val)
        let s := setNext s x none
        (s, [Ev.allocE x, Ev.constructE x], some x)

/-- `emplace(args...)`: make a node, publish it by a release store into the
current `tail_->next`, and advance `tail_`.  The final `Bool` is `false`
when `T`-construction threw (the exception propagates to the caller). -/
def emplace (s : QState α) (v : Option α) : QState α × List Ev × Bool :=
  match make_node s v with
  | (s, tr, none) => (s, tr, false)
  | (s, tr, some x) =>
      let s := setNext s s.tail (some x)
      ({ s with tail := x }, tr ++ [Ev.storeTailNext x], true)

/-- `push(v)` forwards to `emplace`. -/
def push (s : QState α) (v : Option α) : QState α × List Ev × Bool :=
  emplace s v

/-- `pop(out)`: if `head_()` is null return `false` leaving `out` alone;
otherwise move the front `data` into `out`, destroy the slot in place,
and release-store the popped node into `before_head_`. -/
def pop (s : QState α) (out : α) : QState α × List Ev × Bool × α :=
  match headAddr s with
  | some x =>
      let v := (dataAt s.heap x).getD out
      let s := setData s x none
      let s := { s with before_head := x }
      (s, [Ev.destroyE x, Ev.storeBH x], true, v)
  | none => (s, [], false, out)

/-- The loop of `clear()`: walk `last->next` destroying each `data` in
place; returns the state, the events and the final `last`.  The fuel is
always called with more than the number of live nodes. -/
def clearLoop (s : QState α) (last : Nat) (fuel : Nat) : QState α × List Ev × Nat :=
  match fuel with
  | 0 => (s, [], last)
  | fuel + 1 =>
      match nextAt s.heap last with
      | some x =>
          let s := setData s x none
          let r := clearLoop s x fuel
          (r.1, Ev.destroyE x :: r.2.1, r.2.2)
      | none => (s, [], last)

/-- `clear()`: destroy every live `data`, then store the last node into
`before_head_` once, at the end. -/
def clear (s : QState α) : QState α × List Ev :=
  let r := clearLoop s s.before_head (s.heap.length + 1)
  ({ r.1 with before_head := r.2.2 }, r.2.1 ++ [Ev.storeBH r.2.2])

/-- The loop of `consume_all(f)`: invoke `f` on the live value, destroy it,
release-store the node into `before_head_`, then advance via `next`. -/
def consumeLoop (s : QState α) (x : Option Nat) (fuel : Nat) : QState α × List Ev :=
  match fuel, x with
  | 0, _ => (s, [])
  | _ + 1, none => (s, [])
  | fuel + 1, some a =>
      let s := setData s a none
      let s := { s with before_head := a }
      let r := consumeLoop s (nextAt s.heap a) fuel
      (r.1, Ev.invokeE a :: Ev.destroyE a :: Ev.storeBH a :: r.2)

/-- `consume_all(f)`: drain the queue starting from `head_()`. -/
def consume_all (s : QState α) : QState α × List Ev :=
  consumeLoop s (headAddr s) (s.heap.length + 1)

/-- The staging loop of the range `push(first, last)`: repeatedly make
nodes and link them onto the private chain with relaxed `next` stores.
Returns `some insert_tail` on success, `none` when a `T`-construction
threw. -/
def stageLoop (s : QState α) (insert_tail : Nat) (vs : List (Option α)) :
    QState α × List Ev × Option Nat :=
  match vs with
  | [] => (s, [], some insert_tail)
  | v :: rest =>
      match make_node s v with
      | (s, tr, none) => (s, tr, none)
      | (s, tr, some x) =>
          let s := setNext s insert_tail (some x)
          let r := stageLoop s x rest
          (r.1, tr ++ Ev.linkRelaxed insert_tail x :: r.2.1, r.2.2)

/-- The `catch` handler of the range push: walk the private chain,
destroying each staged `data` and returning the node to the allocator. -/
def cleanupLoop (s : QState α) (x : Option Nat) (fuel : Nat) : QState α × List Ev :=
  match fuel, x with
  | 0, _ => (s, [])
  | _ + 1, none => (s, [])
  | fuel + 1, some a =>
      let nx := nextAt s.heap a
      let s := setData s a none
      let s := deallocNode s a
      let r := cleanupLoop s nx fuel
      (r.1, Ev.destroyE a :: Ev.deallocE a :: r.2)

/-- The range overload `push(first, last)`.  The input models the iterator
range: one `Option α` per element, `none` meaning the `T`-construction from
that element throws.  On success the whole private chain is published by a
single release store of `insert_head` into `tail_->next`. -/
def pushRange (s : QState α) (vs : List (Option α)) : QState α × List Ev × Bool :=
  match vs with
  | [] => (s, [], true)
  | v :: rest =>
      match make_node s v with
      | (s, tr, none) => (s, tr, false)
      | (s, tr, some insert_head) =>
          match stageLoop s insert_head rest with
          | (s, tr', none) =>
              let r := cleanupLoop s (some insert_head) (s.heap.length + 1)
              (r.1, tr ++ tr' ++ r.2, false)
          | (s, tr', some insert_tail) =>
              let s2 := setNext s s.tail (some insert_head)
              ({ s2 with tail := insert_tail },
               tr ++ tr' ++ [Ev.storeTailNext insert_head], true)

/-- First loop of the destructor: deallocate the cached nodes, from
`cache_head_` up to (but excluding) `head_()`, without destroying `data`. -/
def dtorCacheLoop (s : QState α) (first cacheEnd : Option Nat) (fuel : Nat) :
    QState α × List Ev × Option Nat :=
  match fuel with
  | 0 => (s, [], first)
  | fuel + 1 =>
      if first = cacheEnd then (s, [], first)
      else
        match first with
        | none => (s, [], none)
        | some x =>
            let nx := nextAt s.heap x
            let s := deallocNode s x
            let r := dtorCacheLoop s nx cacheEnd fuel
            (r.1, Ev.deallocE x :: r.2.1, r.2.2)

/-- Second loop of the destructor: destroy and deallocate the enqueued
nodes. -/
def dtorLiveLoop (s : QState α) (first : Option Nat) (fuel : Nat) :
    QState α × List Ev :=
  match fuel, first with
  | 0, _ => (s, [])
  | _ + 1, none => (s, [])
  | fuel + 1, some x =>
      let nx := nextAt s.heap x
      let s := setData s x none
      let s := deallocNode s x
      let r := dtorLiveLoop s nx fuel
      (r.1, Ev.destroyE x :: Ev.deallocE x :: r.2)

/-- `~spsc_queue()`: deallocate the cached nodes, then destroy and
deallocate the enqueued nodes. -/
def dtor (s : QState α) : QState α × List Ev :=
  let cacheEnd := headAddr s
  let r1 := dtorCacheLoop s (some s.cache_head) cacheEnd (s.heap.length + 1)
  let r2 := dtorLiveLoop r1.1 r1.2.2 (r1.1.heap.length + 1)
  (r2.1, r1.2.1 ++ r2.2)

/-- Follow `next` pointers from a start address, collecting the visited
addresses (bounded by fuel). -/
def follow (h : Heap α) : Nat → Option Nat → List Nat
  | 0, _ => []
  | _, none => []
  | fuel + 1, some a => a :: follow h fuel (nextAt h a)

/-- The addresses of the live nodes, i.e. the chain strictly after
`before_head_` (the queue's visible contents, front first). -/
def liveAddrs (s : QState α) : List Nat :=
  follow s.heap s.heap.length (headAddr s)

/-- The live values of the queue, front first. -/
def liveVals (s : QState α) : List α :=
  (liveAddrs s).filterMap (dataAt s.heap)

/-- The number of heap nodes whose `data` slot is currently constructed. -/
def liveCount (s : QState α) : Nat :=
  s.heap.countP (fun p => p.2.data.isSome)

/-- The number of free nodes the producer can obtain without allocating:
the chain from `cache_head_` strictly up to `before_head_`. -/
def cacheAvail (s : QState α) : Nat :=
  ((follow s.heap s.heap.length (some s.cache_head)).takeWhile
    (fun a => a != s.before_head)).length

/-- Push a whole list of values with `emplace`, collecting the traces. -/
def pushSeqTr (s : QState α) (vs : List α) : QState α × List Ev :=
  match vs with
  | [] => (s, [])
  | v :: t =>
      let r := emplace s (some v)
      let r' := pushSeqTr r.1 t
      (r'.1, r.2.1 ++ r'.2)

/-- Pop repeatedly until `pop` returns false, collecting the outputs. -/
def popAll (s : QState α) (out : α) (fuel : Nat) : QState α × List α :=
  match fuel with
  | 0 => (s, [])
  | fuel + 1 =>
      match pop s out with
      | (s', _, true, v) =>
          let r := popAll s' out fuel
          (r.1, v :: r.2)
      | (s', _, false, _) => (s', [])

/-- Pop until `pop` returns false (ample fuel for any consistent state). -/
def popAllQ (s : QState α) (out : α) : QState α × List α :=
  popAll s out (s.heap.length + 1)

/-- Recognize an `allocate` event. -/
def isAllocEv : Ev → Bool
  | .allocE _ => true
  | _ => false

/-- Recognize a release store to `before_head_`. -/
def isStoreBHEv : Ev → Bool
  | .storeBH _ => true
  | _ => false

/-- Recognize the release store publishing into `tail_->next`. -/
def isStoreTailNextEv : Ev → Bool
  | .storeTailNext _ => true
  | _ => false

/-- The head of a list of addresses, or a fallback pointer for the empty
list.  `headO c stop` is the pointer that reaches the segment `c` and then
continues to `stop`. -/
def headO (c : List Nat) (stop : Option Nat) : Option Nat :=
  match c with
  | [] => stop
  | a :: _ => some a

/-- `chseg h c stop`: the addresses `c` form a consecutive `next`-linked
segment in heap `h`, with the last node's `next` equal to `stop`. -/
def chseg (h : Heap α) : List Nat → Option Nat → Prop
  | [], _ => True
  | a :: t, stop => nextAt h a = headO t stop ∧ chseg h t stop

/-- The queue states reachable from construction by any sequence of
producer and consumer operations. -/
inductive Reachable {α : Type u} : QState α → Prop where
  | init : Reachable initState
  | emp (v : Option α) {s : QState α} : Reachable s → Reachable (emplace s v).1
  | pope (out : α) {s : QState α} : Reachable s → Reachable (pop s out).1
  | clr {s : QState α} : Reachable s → Reachable (clear s).1
  | cons {s : QState α} : Reachable s → Reachable (consume_all s).1
  | rng (vs : List (Option α)) {s : QState α} : Reachable s → Reachable (pushRange s vs).1

/-- The structural invariant of a queue state, with the node chain made
explicit.  `pre` is the segment strictly before `before_head` (the cache
and reclaim regions), `live` the segment strictly after it (the visible
values), and `others` any detached nodes (the private insert chain of a
range push).  The full chain `pre ++ before_head :: live` runs from
`cache_head` to `tail`; its last node's `next` is null; heap addresses are
exactly the chain plus `others`; the nodes up to and including
`before_head` have no live `data`, the nodes after it all do; and the
allocator balance equals the number of allocated nodes. -/
structure ChainAux (s : QState α) (pre live others : List Nat) : Prop where
  seg : chseg s.heap (pre ++ s.before_head :: live) none
  hd : (pre ++ s.before_head :: live).head? = some s.cache_head
  lst : (s.before_head :: live).getLast? = some s.tail
  ctm : s.cache_tail ∈ pre ++ [s.before_head]
  nd : (pre ++ s.before_head :: live ++ others).Nodup
  perm : (keys s.heap).Perm (pre ++ s.before_head :: live ++ others)
  dead : ∀ a ∈ pre ++ [s.before_head], dataAt s.heap a = none
  livedata : ∀ a ∈ live, (dataAt s.heap a).isSome = true
  cnt : s.allocCount = s.deallocCount + (pre ++ s.before_head :: live ++ others).length
  fb : ∀ a ∈ keys s.heap, a < s.fresh

/-- The queue invariant: some decomposition of the heap into the node
chain, with no detached nodes. -/
def Inv (s : QState α) : Prop :=
  ∃ pre live, ChainAux s pre live []

/-- A two-element reachable queue (push 10, push 20 onto a fresh queue),
used as a concrete test state. -/
def exQ2 : QState Nat :=
  (pushSeqTr initState [10, 20]).1

/-- A reachable queue whose node cache holds two free nodes (push two
values, then pop both). -/
def exCache2 : QState Nat :=
  (popAllQ exQ2 0).1

/-- A one-element reachable queue (push 5 onto a fresh queue). -/
def exQ1 : QState Nat :=
  (pushSeqTr initState [5]).1

/-! ## Heap lemmas -/

theorem hget_cons_self (b : Nat) (n : Node α) (h : Heap α) :
    hget ((b, n) :: h) b = some n := by
  simp [hget]

theorem hget_cons_ne {a b : Nat} (n : Node α) (h : Heap α) (hab : a ≠ b) :
    hget ((b, n) :: h) a = hget h a := by
  simp [hget, hab]

theorem hdel_not_mem {h : Heap α} {a : Nat} (ha : a ∉ keys h) : hdel h a = h := by
  induction h with
  | nil => rfl
  | cons p t ih =>
      obtain ⟨b, m⟩ := p
      have hba : b ≠ a := by
        intro hb
        exact ha (by simp [keys, hb])
      have hta : a ∉ keys t := by
        intro hb
        exact ha (by simp [keys] at hb ⊢; tauto)
      simp [hdel, hba, ih hta]

theorem hget_isSome_iff_mem_keys {h : Heap α} {a : Nat} :
    (hget h a).isSome = true ↔ a ∈ keys h := by
  induction h with
  | nil => simp [hget, keys]
  | cons p t ih =>
      obtain ⟨b, n⟩ := p
      by_cases hab : a = b <;> simp [hget, keys, hab, ih]

theorem hget_eq_none_iff_not_mem {h : Heap α} {a : Nat} :
    hget h a = none ↔ a ∉ keys h := by
  rw [← hget_isSome_iff_mem_keys]
  cases hget h a <;> simp

theorem keys_cons (p : Nat × Node α) (t : Heap α) :
    keys (p :: t) = p.1 :: keys t := rfl

theorem keys_hset (h : Heap α) (a : Nat) (n : Node α) :
    keys (hset h a n) = keys h := by
  induction h with
  | nil => rfl
  | cons p t ih =>
      obtain ⟨b, m⟩ := p
      by_cases hba : b = a
      · subst hba
        simp [hset, keys_cons, ih]
      · simp [hset, hba, keys_cons, ih]

theorem hget_hset_self {h : Heap α} {a : Nat} (n : Node α)
    (ha : a ∈ keys h) : hget (hset h a n) a = some n := by
  induction h with
  | nil => simp [keys] at ha
  | cons p t ih =>
      obtain ⟨b, m⟩ := p
      by_cases hba : b = a
      · subst hba
        simp [hset, hget]
      · have hmem : a ∈ keys t := by
          simpa [keys, Ne.symm hba] using ha
        simp [hset, hba, hget, Ne.symm hba, ih hmem]

theorem hget_hset_ne {h : Heap α} {a b : Nat} (n : Node α) (hba : b ≠ a) :
    hget (hset h a n) b = hget h b := by
  induction h with
  | nil => rfl
  | cons p t ih =>
      obtain ⟨c, m⟩ := p
      by_cases hca : c = a
      · subst hca
        simp [hset, hget, hba, ih]
      · by_cases hbc : b = c <;> simp [hset, hget, hca, hbc, ih]

theorem hget_hdel_self (h : Heap α) (a : Nat) : hget (hdel h a) a = none := by
  induction h with
  | nil => rfl
  | cons p t ih =>
      obtain ⟨b, m⟩ := p
      by_cases hba : b = a
      · simpa [hdel, hba] using ih
      · simp [hdel, hba, hget, Ne.symm hba, ih]

theorem hget_hdel_ne {h : Heap α} {a b : Nat} (hba : b ≠ a) :
    hget (hdel h a) b = hget h b := by
  induction h with
  | nil => rfl
  | cons p t ih =>
      obtain ⟨c, m⟩ := p
      by_cases hca : c = a
      · subst hca
        simp [hdel, hget, hba, ih]
      · by_cases hbc : b = c <;> simp [hdel, hget, hca, hbc, ih]

theorem keys_hdel (h : Heap α) (a : Nat) :
    keys (hdel h a) = (keys h).filter (fun b => b != a) := by
  induction h with
  | nil => rfl
  | cons p t ih =>
      obtain ⟨b, m⟩ := p
      by_cases hba : b = a
      · subst hba
        simp [hdel, keys_cons, List.filter_cons, ih]
      · simp [hdel, hba, keys_cons, List.filter_cons, bne_iff_ne, ih]

theorem keys_hdel_perm {h : Heap α} {a : Nat} (hnd : (keys h).Nodup)
    (ha : a ∈ keys h) : (keys h).Perm (a :: keys (hdel h a)) := by
  rw [keys_hdel]
  have herase : (keys h).filter (fun b => b != a) = (keys h).erase a := by
    rw [List.Nodup.erase_eq_filter hnd a]
  rw [herase]
  exact (List.perm_cons_erase ha)

/-! ## State-update lemmas -/

@[simp] theorem setData_fresh (s : QState α) (a : Nat) (d : Option α) :
    (setData s a d).fresh = s.fresh := by
  unfold setData; cases hget s.heap a <;> rfl

@[simp] theorem setData_allocCount (s : QState α) (a : Nat) (d : Option α) :
    (setData s a d).allocCount = s.allocCount := by
  unfold setData; cases hget s.heap a <;> rfl

@[simp] theorem setData_deallocCount (s : QState α) (a : Nat) (d : Option α) :
    (setData s a d).deallocCount = s.deallocCount := by
  unfold setData; cases hget s.heap a <;> rfl

@[simp] theorem setData_tail (s : QState α) (a : Nat) (d : Option α) :
    (setData s a d).tail = s.tail := by
  unfold setData; cases hget s.heap a <;> rfl

@[simp] theorem setData_before_head (s : QState α) (a : Nat) (d : Option α) :
    (setData s a d).before_head = s.before_head := by
  unfold setData; cases hget s.heap a <;> rfl

@[simp] theorem setData_cache_tail (s : QState α) (a : Nat) (d : Option α) :
    (setData s a d).cache_tail = s.cache_tail := by
  unfold setData; cases hget s.heap a <;> rfl

@[simp] theorem setData_cache_head (s : QState α) (a : Nat) (d : Option α) :
    (setData s a d).cache_head = s.cache_head := by
  unfold setData; cases hget s.heap a <;> rfl

theorem keys_setData (s : QState α) (a : Nat) (d : Option α) :
    keys (setData s a d).heap = keys s.heap := by
  unfold setData
  cases hget s.heap a <;> simp [keys_hset]

theorem nextAt_setData (s : QState α) (a : Nat) (d : Option α) (b : Nat) :
    nextAt (setData s a d).heap b = nextAt s.heap b := by
  unfold setData
  cases hg : hget s.heap a with
  | none => rfl
  | some n =>
      by_cases hba : b = a
      · subst hba
        have hmem : b ∈ keys s.heap := by
          rw [← hget_isSome_iff_mem_keys, hg]; rfl
        simp [nextAt, hget_hset_self _ hmem, hg]
      · simp [nextAt, hget_hset_ne _ hba]

theorem dataAt_setData_ne (s : QState α) (a : Nat) (d : Option α) {b : Nat}
    (hba : b ≠ a) : dataAt (setData s a d).heap b = dataAt s.heap b := by
  unfold setData
  cases hg : hget s.heap a with
  | none => rfl
  | some n => simp [dataAt, hget_hset_ne _ hba]

theorem dataAt_setData_self (s : QState α) (a : Nat) (d : Option α)
    (ha : (hget s.heap a).isSome = true) :
    dataAt (setData s a d).heap a = d := by
  unfold setData
  cases hg : hget s.heap a with
  | none => rw [hg] at ha; exact absurd ha (by simp)
  | some n =>
      have hmem : a ∈ keys s.heap := by
        rw [← hget_isSome_iff_mem_keys, hg]; rfl
      simp [dataAt, hget_hset_self _ hmem]

@[simp] theorem setNext_fresh (s : QState α) (a : Nat) (nx : Option Nat) :
    (setNext s a nx).fresh = s.fresh := by
  unfold setNext; cases hget s.heap a <;> rfl

@[simp] theorem setNext_allocCount (s : QState α) (a : Nat) (nx : Option Nat) :
    (setNext s a nx).allocCount = s.allocCount := by
  unfold setNext; cases hget s.heap a <;> rfl

@[simp] theorem setNext_deallocCount (s : QState α) (a : Nat) (nx : Option Nat) :
    (setNext s a nx).deallocCount = s.deallocCount := by
  unfold setNext; cases hget s.heap a <;> rfl

@[simp] theorem setNext_tail (s : QState α) (a : Nat) (nx : Option Nat) :
    (setNext s a nx).tail = s.tail := by
  unfold setNext; cases hget s.heap a <;> rfl

@[simp] theorem setNext_before_head (s : QState α) (a : Nat) (nx : Option Nat) :
    (setNext s a nx).before_head = s.before_head := by
  unfold setNext; cases hget s.heap a <;> rfl

@[simp] theorem setNext_cache_tail (s : QState α) (a : Nat) (nx : Option Nat) :
    (setNext s a nx).cache_tail = s.cache_tail := by
  unfold setNext; cases hget s.heap a <;> rfl

@[simp] theorem setNext_cache_head (s : QState α) (a : Nat) (nx : Option Nat) :
    (setNext s a nx).cache_head = s.cache_head := by
  unfold setNext; cases hget s.heap a <;> rfl

theorem keys_setNext (s : QState α) (a : Nat) (nx : Option Nat) :
    keys (setNext s a nx).heap = keys s.heap := by
  unfold setNext
  cases hget s.heap a <;> simp [keys_hset]

theorem dataAt_setNext (s : QState α) (a : Nat) (nx : Option Nat) (b : Nat) :
    dataAt (setNext s a nx).heap b = dataAt s.heap b := by
  unfold setNext
  cases hg : hget s.heap a with
  | none => rfl
  | some n =>
      by_cases hba : b = a
      · subst hba
        have hmem : b ∈ keys s.heap := by
          rw [← hget_isSome_iff_mem_keys, hg]; rfl
        simp [dataAt, hget_hset_self _ hmem, hg]
      · simp [dataAt, hget_hset_ne _ hba]

theorem nextAt_setNext_ne (s : QState α) (a : Nat) (nx : Option Nat) {b : Nat}
    (hba : b ≠ a) : nextAt (setNext s a nx).heap b = nextAt s.heap b := by
  unfold setNext
  cases hg : hget s.heap a with
  | none => rfl
  | some n => simp [nextAt, hget_hset_ne _ hba]

theorem nextAt_setNext_self (s : QState α) (a : Nat) (nx : Option Nat)
    (ha : (hget s.heap a).isSome = true) :
    nextAt (setNext s a nx).heap a = nx := by
  unfold setNext
  cases hg : hget s.heap a with
  | none => rw [hg] at ha; exact absurd ha (by simp)
  | some n =>
      have hmem : a ∈ keys s.heap := by
        rw [← hget_isSome_iff_mem_keys, hg]; rfl
      simp [nextAt, hget_hset_self _ hmem]

@[simp] theorem deallocNode_fresh (s : QState α) (a : Nat) :
    (deallocNode s a).fresh = s.fresh := rfl

@[simp] theorem deallocNode_allocCount (s : QState α) (a : Nat) :
    (deallocNode s a).allocCount = s.allocCount := rfl

@[simp] theorem deallocNode_deallocCount (s : QState α) (a : Nat) :
    (deallocNode s a).deallocCount = s.deallocCount + 1 := rfl

@[simp] theorem deallocNode_tail (s : QState α) (a : Nat) :
    (deallocNode s a).tail = s.tail := rfl

@[simp] theorem deallocNode_before_head (s : QState α) (a : Nat) :
    (deallocNode s a).before_head = s.before_head := rfl

@[simp] theorem deallocNode_cache_tail (s : QState α) (a : Nat) :
    (deallocNode s a).cache_tail = s.cache_tail := rfl

@[simp] theorem deallocNode_cache_head (s : QState α) (a : Nat) :
    (deallocNode s a).cache_head = s.cache_head := rfl

theorem nextAt_deallocNode_ne (s : QState α) (a : Nat) {b : Nat} (hba : b ≠ a) :
    nextAt (deallocNode s a).heap b = nextAt s.heap b := by
  simp [deallocNode, nextAt, hget_hdel_ne hba]

theorem dataAt_deallocNode_ne (s : QState α) (a : Nat) {b : Nat} (hba : b ≠ a) :
    dataAt (deallocNode s a).heap b = dataAt s.heap b := by
  simp [deallocNode, dataAt, hget_hdel_ne hba]

theorem hget_deallocNode_self (s : QState α) (a : Nat) :
    hget (deallocNode s a).heap a = none := by
  simp [deallocNode, hget_hdel_self]

/-! ## Chain-segment lemmas -/

theorem chseg_nil (h : Heap α) (stop : Option Nat) : chseg h [] stop := trivial

theorem chseg_cons {h : Heap α} {a : Nat} {t : List Nat} {stop : Option Nat} :
    chseg h (a :: t) stop ↔ nextAt h a = headO t stop ∧ chseg h t stop :=
  Iff.rfl

theorem chseg_congr {h h' : Heap α} {c : List Nat} {stop : Option Nat}
    (hnext : ∀ a ∈ c, nextAt h' a = nextAt h a) (hc : chseg h c stop) :
    chseg h' c stop := by
  induction c with
  | nil => trivial
  | cons a t ih =>
      obtain ⟨h1, h2⟩ := hc
      exact ⟨by rw [hnext a (by simp), h1],
        ih (fun b hb => hnext b (by simp [hb])) h2⟩

theorem chseg_append_right {h : Heap α} {c1 c2 : List Nat} {stop : Option Nat}
    (hc : chseg h (c1 ++ c2) stop) : chseg h c2 stop := by
  induction c1 with
  | nil => exact hc
  | cons a t ih => exact ih hc.2

theorem headO_append (c1 c2 : List Nat) (stop : Option Nat) :
    headO (c1 ++ c2) stop = headO c1 (headO c2 stop) := by
  cases c1 <;> rfl

theorem chseg_split {h : Heap α} {c1 c2 : List Nat} {stop : Option Nat}
    (hc : chseg h (c1 ++ c2) stop) : chseg h c1 (headO c2 stop) := by
  induction c1 with
  | nil => trivial
  | cons a t ih =>
      refine ⟨?_, ih hc.2⟩
      rw [hc.1]
      exact headO_append t c2 stop

theorem chseg_append {h : Heap α} {c1 c2 : List Nat} {stop : Option Nat}
    (h1 : chseg h c1 (headO c2 stop)) (h2 : chseg h c2 stop) :
    chseg h (c1 ++ c2) stop := by
  induction c1 with
  | nil => exact h2
  | cons a t ih =>
      refine ⟨?_, ih h1.2⟩
      rw [h1.1]
      exact (headO_append t c2 stop).symm

theorem mem_of_getLast?_eq {β : Type u} {l : List β} {a : β}
    (h : l.getLast? = some a) : a ∈ l := by
  have hx : a ∈ l.getLast? := by rw [Option.mem_def]; exact h
  obtain ⟨hne, heq⟩ := List.mem_getLast?_eq_getLast hx
  rw [heq]
  exact List.getLast_mem hne

theorem chseg_set_stop {h h' : Heap α} {c : List Nat} {t : Nat} {y : Option Nat}
    (hc : chseg h c none) (hlast : c.getLast? = some t) (hnd : c.Nodup)
    (hother : ∀ a ∈ c, a ≠ t → nextAt h' a = nextAt h a)
    (ht : nextAt h' t = y) : chseg h' c y := by
  induction c with
  | nil => trivial
  | cons a rest ih =>
      cases rest with
      | nil =>
          simp at hlast
          subst hlast
          exact ⟨by simpa [headO] using ht, trivial⟩
      | cons b rest' =>
          have hlast' : (b :: rest').getLast? = some t := by
            simpa [List.getLast?_cons_cons] using hlast
          have hat : a ≠ t := by
            intro heq
            subst heq
            have : a ∈ b :: rest' := mem_of_getLast?_eq hlast'
            exact (List.nodup_cons.mp hnd).1 this
          refine ⟨?_, ih hc.2 hlast' (List.nodup_cons.mp hnd).2
            (fun x hx hxt => hother x (by simp [hx]) hxt)⟩
          have h1 : nextAt h a = some b := hc.1
          exact (hother a (by simp) hat).trans h1

theorem chseg_last_next {h : Heap α} {c : List Nat} {stop : Option Nat} {t : Nat}
    (hc : chseg h c stop) (hl : c.getLast? = some t) : nextAt h t = stop := by
  induction c with
  | nil => simp at hl
  | cons a rest ih =>
      cases rest with
      | nil =>
          simp at hl
          subst hl
          exact hc.1
      | cons b rest' =>
          exact ih hc.2 (by simpa [List.getLast?_cons_cons] using hl)

theorem follow_eq_of_chseg {h : Heap α} {c : List Nat}
    (hc : chseg h c none) : ∀ fuel, c.length ≤ fuel →
    follow h fuel (headO c none) = c := by
  induction c with
  | nil => intro fuel _; cases fuel <;> rfl
  | cons a t ih =>
      intro fuel hf
      cases fuel with
      | zero => simp at hf
      | succ fuel =>
          have := ih hc.2 fuel (by simpa using hf)
          simp only [headO, follow]
          rw [hc.1, this]

/-! ## Consequences of the chain invariant -/

theorem headO_eq_head? {c : List Nat} (h : c ≠ []) (stop : Option Nat) :
    headO c stop = c.head? := by
  cases c with
  | nil => exact absurd rfl h
  | cons a t => rfl

theorem ChainAux.keys_nodup {s : QState α} {pre live others : List Nat}
    (CA : ChainAux s pre live others) : (keys s.heap).Nodup :=
  CA.perm.nodup_iff.mpr CA.nd

theorem ChainAux.mem_keys {s : QState α} {pre live others : List Nat}
    (CA : ChainAux s pre live others) {a : Nat}
    (ha : a ∈ pre ++ s.before_head :: live ++ others) : a ∈ keys s.heap :=
  CA.perm.mem_iff.mpr ha

theorem ChainAux.isSome_hget {s : QState α} {pre live others : List Nat}
    (CA : ChainAux s pre live others) {a : Nat}
    (ha : a ∈ pre ++ s.before_head :: live ++ others) :
    (hget s.heap a).isSome = true :=
  hget_isSome_iff_mem_keys.mpr (CA.mem_keys ha)

theorem ChainAux.permOthers {s : QState α} {pre live o1 o2 : List Nat}
    (CA : ChainAux s pre live o1) (hp : o1.Perm o2) : ChainAux s pre live o2 := by
  have h2 : (pre ++ (s.before_head :: (live ++ o1))).Perm
      (pre ++ (s.before_head :: (live ++ o2))) :=
    ((hp.append_left live).cons s.before_head).append_left pre
  refine ⟨CA.seg, CA.hd, CA.lst, CA.ctm, ?_, ?_, CA.dead, CA.livedata, ?_, CA.fb⟩
  · have h3 := CA.nd
    simp only [List.cons_append, List.append_assoc] at h3 ⊢
    exact h2.nodup h3
  · have h3 := CA.perm
    simp only [List.cons_append, List.append_assoc] at h3 ⊢
    exact h3.trans (by simpa using h2)
  · rw [CA.cnt]
    simp [hp.length_eq]

theorem ChainAux.heap_length {s : QState α} {pre live others : List Nat}
    (CA : ChainAux s pre live others) :
    s.heap.length = (pre ++ s.before_head :: live ++ others).length := by
  have := CA.perm.length_eq
  simpa [keys] using this

theorem ChainAux.seg_live {s : QState α} {pre live others : List Nat}
    (CA : ChainAux s pre live others) :
    nextAt s.heap s.before_head = headO live none ∧ chseg s.heap live none := by
  have h1 : chseg s.heap (s.before_head :: live) none := by
    have := CA.seg
    exact @chseg_append_right _ _ pre _ _ this
  exact ⟨h1.1, h1.2⟩

theorem ChainAux.headAddr_eq {s : QState α} {pre live others : List Nat}
    (CA : ChainAux s pre live others) : headAddr s = headO live none :=
  CA.seg_live.1

theorem ChainAux.liveAddrs_eq {s : QState α} {pre live others : List Nat}
    (CA : ChainAux s pre live others) : liveAddrs s = live := by
  have hlen : live.length ≤ s.heap.length := by
    rw [CA.heap_length]
    simp
    omega
  unfold liveAddrs
  rw [CA.headAddr_eq]
  exact follow_eq_of_chseg CA.seg_live.2 _ hlen

theorem ChainAux.liveVals_eq {s : QState α} {pre live others : List Nat}
    (CA : ChainAux s pre live others) :
    liveVals s = live.filterMap (dataAt s.heap) := by
  unfold liveVals
  rw [CA.liveAddrs_eq]

/-! ## `make_node_` case analysis -/

theorem make_node_recycle {s : QState α} {pre' live others : List Nat} {val : α}
    (CA : ChainAux s (s.cache_head :: pre') live others) :
    ∃ s4,
      make_node s (some val) = (s4, [Ev.constructE s.cache_head], some s.cache_head) ∧
      ChainAux s4 pre' live (s.cache_head :: others) ∧
      dataAt s4.heap s.cache_head = some val ∧
      nextAt s4.heap s.cache_head = none ∧
      (∀ a, a ≠ s.cache_head → dataAt s4.heap a = dataAt s.heap a) ∧
      (∀ a, a ≠ s.cache_head → nextAt s4.heap a = nextAt s.heap a) ∧
      s4.before_head = s.before_head ∧ s4.tail = s.tail ∧
      s4.allocCount = s.allocCount ∧ s4.deallocCount = s.deallocCount ∧
      s4.fresh = s.fresh ∧ keys s4.heap = keys s.heap ∧
      (∃ y, nextAt s.heap s.cache_head = some y ∧ s4.cache_head = y) := by
  set q := s.cache_head with hqdef
  -- q is not among the rest of the chain or the detached nodes
  have hnotin : q ∉ pre' ++ s.before_head :: live ++ others := by
    have := CA.nd
    simp only [List.cons_append] at this
    exact (List.nodup_cons.mp this).1
  have hbhq : s.before_head ≠ q := by
    intro h
    exact hnotin (by simp [← h])
  -- the recycle branch is taken
  have hct : refillCT s ≠ q := by
    unfold refillCT
    by_cases hc : s.cache_tail = s.cache_head
    · simpa [hc] using hbhq
    · simpa [hc] using hc
  -- membership of q in the heap
  have hqmem : q ∈ keys s.heap := CA.mem_keys (by simp)
  -- the successor of q on the chain
  obtain ⟨y, hy⟩ : ∃ y, headO (pre' ++ s.before_head :: live) none = some y := by
    cases pre' <;> exact ⟨_, rfl⟩
  have hnextq : nextAt s.heap q = some y := by
    have h1 : chseg s.heap (q :: (pre' ++ s.before_head :: live)) none := by
      have := CA.seg
      simpa [List.cons_append] using this
    rw [h1.1, hy]
  -- the intermediate states
  set S1 : QState α := { s with cache_tail := refillCT s } with hS1
  set S2 : QState α := setData S1 q (some val) with hS2
  set S3 : QState α := { S2 with cache_head := (nextAt S2.heap q).getD 0 } with hS3
  set S4 : QState α := setNext S3 q none with hS4
  have hbranch : make_node s (some val) = (S4, [Ev.constructE q], some q) := by
    simp only [make_node, hS1, hS2, hS3, hS4]
    rw [if_pos]
    exact hct
  have hS1heap : S1.heap = s.heap := rfl
  have hS2keys : keys S2.heap = keys s.heap := by
    rw [hS2, keys_setData, hS1heap]
  have hS2getq : (hget S2.heap q).isSome = true := by
    rw [hget_isSome_iff_mem_keys, hS2keys]
    exact hqmem
  have hS2next : ∀ a, nextAt S2.heap a = nextAt s.heap a := by
    intro a
    rw [hS2]
    rw [nextAt_setData]
  have hS3heap : S3.heap = S2.heap := rfl
  have hS3ch : S3.cache_head = y := by
    rw [hS3]
    simp only []
    rw [hS2next q, hnextq]
    rfl
  have hS4keys : keys S4.heap = keys s.heap := by
    rw [hS4, keys_setNext, hS3heap, hS2keys]
  have hS4data_self : dataAt S4.heap q = some val := by
    rw [hS4]
    rw [dataAt_setNext, hS3heap, hS2]
    exact dataAt_setData_self _ _ _ (by rw [hS1heap]; rwa [hget_isSome_iff_mem_keys])
  have hS4next_self : nextAt S4.heap q = none := by
    rw [hS4]
    exact nextAt_setNext_self _ _ _ (by rw [hS3heap]; exact hS2getq)
  have hS4data_ne : ∀ a, a ≠ q → dataAt S4.heap a = dataAt s.heap a := by
    intro a ha
    rw [hS4, dataAt_setNext, hS3heap, hS2, dataAt_setData_ne _ _ _ ha, hS1heap]
  have hS4next_ne : ∀ a, a ≠ q → nextAt S4.heap a = nextAt s.heap a := by
    intro a ha
    rw [hS4, nextAt_setNext_ne _ _ _ ha, hS3heap, hS2next a]
  have hS4bh : S4.before_head = s.before_head := by
    simp [hS4, hS3, hS2, hS1]
  have hS4tail : S4.tail = s.tail := by
    simp [hS4, hS3, hS2, hS1]
  have hS4alloc : S4.allocCount = s.allocCount := by
    simp [hS4, hS3, hS2, hS1]
  have hS4dealloc : S4.deallocCount = s.deallocCount := by
    simp [hS4, hS3, hS2, hS1]
  have hS4fresh : S4.fresh = s.fresh := by
    simp [hS4, hS3, hS2, hS1]
  have hS4ct : S4.cache_tail = refillCT s := by
    simp [hS4, hS3, hS2, hS1]
  have hS4ch : S4.cache_head = y := by
    rw [hS4, setNext_cache_head, hS3ch]
  refine ⟨S4, hbranch, ?_, hS4data_self, hS4next_self, hS4data_ne, hS4next_ne,
    hS4bh, hS4tail, hS4alloc, hS4dealloc, hS4fresh, hS4keys, ⟨y, hnextq, hS4ch⟩⟩
  -- the chain invariant for the new state
  have hqnot_chain : q ∉ pre' ++ s.before_head :: live := by
    intro h
    apply hnotin
    simp only [List.mem_append, List.mem_cons] at h ⊢
    tauto
  constructor
  case seg =>
      rw [hS4bh]
      apply chseg_congr (h := s.heap)
      · intro a ha
        refine hS4next_ne a ?_
        intro h
        exact hqnot_chain (h ▸ ha)
      · have := CA.seg
        simp only [List.cons_append] at this
        exact this.2
  case hd =>
      rw [hS4bh, hS4ch]
      rw [← headO_eq_head? (by simp) none]
      exact hy
  case lst =>
      rw [hS4bh, hS4tail]
      exact CA.lst
  case ctm =>
      rw [hS4ct, hS4bh]
      unfold refillCT
      by_cases hc : s.cache_tail = s.cache_head
      · simp [hc]
      · rw [if_neg hc]
        have := CA.ctm
        simp only [List.cons_append, List.mem_cons] at this
        rcases this with h | h
        · exact absurd (h.trans hqdef.symm) hc
        · exact h
  case nd =>
      have h1 := CA.nd
      simp only [List.cons_append] at h1
      have h2 : (q :: (pre' ++ s.before_head :: live ++ others)).Perm
          ((pre' ++ s.before_head :: live) ++ q :: others) := List.perm_middle.symm
      have h3 := h2.nodup (by simpa using h1)
      rw [hS4bh]
      simpa [List.append_assoc] using h3
  case perm =>
      have h1 := CA.perm
      rw [hS4keys, hS4bh]
      simp only [List.cons_append] at h1
      have h2 : (q :: (pre' ++ s.before_head :: live ++ others)).Perm
          ((pre' ++ s.before_head :: live) ++ q :: others) := List.perm_middle.symm
      refine h1.trans ?_
      simpa [List.append_assoc] using h2
  case dead =>
      intro a ha
      rw [hS4bh] at ha
      have haq : a ≠ q := by
        intro h
        subst h
        apply hnotin
        simp only [List.cons_append, List.mem_append, List.mem_cons] at ha ⊢
        tauto
      rw [hS4data_ne a haq]
      apply CA.dead
      simp only [List.cons_append, List.mem_append, List.mem_cons] at ha ⊢
      tauto
  case livedata =>
      intro a ha
      have haq : a ≠ q := by
        intro h
        subst h
        exact hnotin (by simp [ha])
      rw [hS4data_ne a haq]
      exact CA.livedata a ha
  case cnt =>
      rw [hS4alloc, hS4dealloc, CA.cnt]
      simp only [List.cons_append, List.length_append, List.length_cons]
      omega
  case fb =>
      intro a ha
      rw [hS4fresh]
      apply CA.fb
      rwa [hS4keys] at ha

theorem make_node_alloc {s : QState α} {live others : List Nat} {val : α}
    (CA : ChainAux s [] live others) :
    ∃ s4,
      make_node s (some val) =
        (s4, [Ev.allocE s.fresh, Ev.constructE s.fresh], some s.fresh) ∧
      ChainAux s4 [] live (s.fresh :: others) ∧
      dataAt s4.heap s.fresh = some val ∧
      nextAt s4.heap s.fresh = none ∧
      (∀ a, a ≠ s.fresh → dataAt s4.heap a = dataAt s.heap a) ∧
      (∀ a, a ≠ s.fresh → nextAt s4.heap a = nextAt s.heap a) ∧
      s4.before_head = s.before_head ∧ s4.tail = s.tail ∧
      s4.allocCount = s.allocCount + 1 ∧ s4.deallocCount = s.deallocCount ∧
      s4.fresh = s.fresh + 1 ∧ keys s4.heap = s.fresh :: keys s.heap := by
  have hch : s.cache_head = s.before_head := by
    have := CA.hd
    simp at this
    exact this.symm
  have hctl : s.cache_tail = s.before_head := by
    have := CA.ctm
    simpa using this
  have hrf : refillCT s = s.cache_head := by
    unfold refillCT
    rw [if_pos (hctl.trans hch.symm)]
    exact hch.symm
  have hfrnot : s.fresh ∉ keys s.heap := by
    intro h
    exact absurd (CA.fb s.fresh h) (by omega)
  set f := s.fresh with hfdef
  set S1 : QState α := { s with cache_tail := refillCT s } with hS1
  set S2 : QState α := { S1 with
      heap := (S1.fresh, ⟨none, none⟩) :: S1.heap
      fresh := S1.fresh + 1
      allocCount := S1.allocCount + 1 } with hS2
  set S3 : QState α := setData S2 f (some val) with hS3
  set S4 : QState α := setNext S3 f none with hS4
  have hbranch : make_node s (some val) = (S4, [Ev.allocE f, Ev.constructE f], some f) := by
    simp only [make_node, allocNode, hS1, hS2, hS3, hS4]
    rw [if_neg (by simp [hrf])]
  have hS2get_f : hget S2.heap f = some ⟨none, none⟩ := hget_cons_self _ _ _
  have hS2get_ne : ∀ a, a ≠ f → hget S2.heap a = hget s.heap a := by
    intro a ha
    exact hget_cons_ne _ _ ha
  have hS2keys : keys S2.heap = f :: keys s.heap := rfl
  have hS3keys : keys S3.heap = f :: keys s.heap := by
    rw [hS3, keys_setData, hS2keys]
  have hS4keys : keys S4.heap = f :: keys s.heap := by
    rw [hS4, keys_setNext, hS3keys]
  have hfmemS2 : f ∈ keys S2.heap := by
    rw [hS2keys]
    simp
  have hS4data_self : dataAt S4.heap f = some val := by
    rw [hS4, dataAt_setNext, hS3]
    exact dataAt_setData_self _ _ _ (by rw [hS2get_f]; rfl)
  have hS4next_self : nextAt S4.heap f = none := by
    rw [hS4]
    refine nextAt_setNext_self _ _ _ ?_
    rw [hS3]
    rw [hget_isSome_iff_mem_keys]
    rw [keys_setData, hS2keys]
    simp
  have hS4data_ne : ∀ a, a ≠ f → dataAt S4.heap a = dataAt s.heap a := by
    intro a ha
    rw [hS4, dataAt_setNext, hS3, dataAt_setData_ne _ _ _ ha]
    simp [dataAt, hS2get_ne a ha]
  have hS4next_ne : ∀ a, a ≠ f → nextAt S4.heap a = nextAt s.heap a := by
    intro a ha
    rw [hS4, nextAt_setNext_ne _ _ _ ha, hS3, nextAt_setData]
    simp [nextAt, hS2get_ne a ha]
  have hS4bh : S4.before_head = s.before_head := by
    simp [hS4, hS3, hS2, hS1]
  have hS4tail : S4.tail = s.tail := by
    simp [hS4, hS3, hS2, hS1]
  have hS4alloc : S4.allocCount = s.allocCount + 1 := by
    simp [hS4, hS3, hS2, hS1]
  have hS4dealloc : S4.deallocCount = s.deallocCount := by
    simp [hS4, hS3, hS2, hS1]
  have hS4fresh : S4.fresh = s.fresh + 1 := by
    simp [hS4, hS3, hS2, hS1]
  have hS4ct : S4.cache_tail = refillCT s := by
    simp [hS4, hS3, hS2, hS1]
  have hS4ch : S4.cache_head = s.cache_head := by
    simp [hS4, hS3, hS2, hS1]
  have hchain_sub : ∀ a ∈ s.before_head :: live ++ others, a ≠ f := by
    intro a ha
    intro h
    subst h
    exact hfrnot (CA.mem_keys (by simpa using ha))
  refine ⟨S4, hbranch, ?_, hS4data_self, hS4next_self, hS4data_ne, hS4next_ne,
    hS4bh, hS4tail, hS4alloc, hS4dealloc, hS4fresh, hS4keys⟩
  constructor
  case seg =>
      rw [hS4bh]
      simp only [List.nil_append]
      apply chseg_congr (h := s.heap)
      · intro a ha
        refine hS4next_ne a (hchain_sub a ?_)
        simp only [List.mem_cons, List.mem_append] at ha ⊢
        tauto
      · have := CA.seg
        simpa using this
  case hd =>
      rw [hS4bh, hS4ch]
      simpa using hch.symm
  case lst =>
      rw [hS4bh, hS4tail]
      exact CA.lst
  case ctm =>
      rw [hS4ct, hS4bh, hrf, hch]
      simp
  case nd =>
      rw [hS4bh]
      have h1 := CA.nd
      simp only [List.nil_append] at h1 ⊢
      have h2 : (f :: (s.before_head :: live ++ others)).Nodup := by
        refine List.nodup_cons.mpr ⟨?_, h1⟩
        intro hmem
        exact (hchain_sub f hmem) rfl
      have h3 : (f :: (s.before_head :: live ++ others)).Perm
          ((s.before_head :: live) ++ f :: others) := by
        simpa using (List.perm_middle.symm :
          (f :: ((s.before_head :: live) ++ others)).Perm
            ((s.before_head :: live) ++ f :: others))
      have h4 := h3.nodup h2
      simpa [List.append_assoc] using h4
  case perm =>
      rw [hS4keys, hS4bh]
      have h1 := CA.perm
      simp only [List.nil_append] at h1 ⊢
      have h3 : (f :: (s.before_head :: live ++ others)).Perm
          ((s.before_head :: live) ++ f :: others) := by
        simpa using (List.perm_middle.symm :
          (f :: ((s.before_head :: live) ++ others)).Perm
            ((s.before_head :: live) ++ f :: others))
      refine (h1.cons f).trans ?_
      simpa [List.append_assoc] using h3
  case dead =>
      intro a ha
      rw [hS4bh] at ha
      simp only [List.nil_append, List.mem_singleton] at ha
      subst ha
      rw [hS4data_ne _ (hchain_sub _ (by simp))]
      apply CA.dead
      simp
  case livedata =>
      intro a ha
      rw [hS4data_ne _ (hchain_sub _ (by simp [ha]))]
      exact CA.livedata a ha
  case cnt =>
      rw [hS4alloc, hS4dealloc, CA.cnt]
      simp only [List.nil_append, List.cons_append, List.length_append, List.length_cons]
      omega
  case fb =>
      intro a ha
      rw [hS4fresh]
      rw [hS4keys] at ha
      rcases List.mem_cons.mp ha with h | h
      · omega
      · have := CA.fb a h
        omega

/-- The exception path of `make_node_` on the cache-recycle branch: when
`T`-construction throws while recycling, only the `cache_tail_` refill has
happened; the heap, the cache head and the allocator are untouched. -/
theorem make_node_fail_cache (s : QState α) (hne : refillCT s ≠ s.cache_head) :
    make_node s none = ({ s with cache_tail := refillCT s }, [], none) := by
  simp only [make_node]
  rw [if_pos hne]

/-- The exception path of `make_node_` on the allocation branch: the fresh
node is deallocated and the exception propagates. -/
theorem make_node_fail_alloc (s : QState α) (heq : refillCT s = s.cache_head)
    (hfr : s.fresh ∉ keys s.heap) :
    make_node s none =
      ({ s with
          cache_tail := refillCT s
          fresh := s.fresh + 1
          allocCount := s.allocCount + 1
          deallocCount := s.deallocCount + 1 },
        [Ev.allocE s.fresh, Ev.deallocE s.fresh], none) := by
  simp only [make_node, allocNode]
  rw [if_neg (by simp [heq])]
  simp only [deallocNode]
  have hh : hdel ((s.fresh, (⟨none, none⟩ : Node α)) :: s.heap) s.fresh = s.heap := by
    simp [hdel, hdel_not_mem hfr]
  simp [hh]

/-- `make_node_` with a throwing `T`-construction preserves the chain
invariant: the chain, the heap, and all pointers except the `cache_tail_`
snapshot are untouched, and no shared store or node destruction happens. -/
theorem make_node_fail {s : QState α} {pre live others : List Nat}
    (CA : ChainAux s pre live others) :
    ∃ s' tr, make_node s none = (s', tr, none) ∧ ChainAux s' pre live others ∧
      s'.heap = s.heap ∧ s'.before_head = s.before_head ∧ s'.tail = s.tail ∧
      s'.cache_head = s.cache_head ∧
      (∀ e ∈ tr, isStoreBHEv e = false ∧ isStoreTailNextEv e = false) ∧
      (∀ a, Ev.destroyE a ∉ tr) ∧
      (∀ a ∈ keys s.heap, Ev.deallocE a ∉ tr) := by
  cases pre with
  | nil =>
      have hch : s.cache_head = s.before_head := by
        have := CA.hd
        simp at this
        exact this.symm
      have hctl : s.cache_tail = s.before_head := by
        have := CA.ctm
        simpa using this
      have hrf : refillCT s = s.cache_head := by
        unfold refillCT
        rw [if_pos (hctl.trans hch.symm)]
        exact hch.symm
      have hfrnot : s.fresh ∉ keys s.heap := by
        intro h
        exact absurd (CA.fb s.fresh h) (by omega)
      refine ⟨_, _, make_node_fail_alloc s hrf hfrnot, ?_, rfl, rfl, rfl, rfl,
        ?_, ?_, ?_⟩
      · refine ⟨CA.seg, CA.hd, CA.lst, ?_, CA.nd, CA.perm, CA.dead, CA.livedata,
          ?_, ?_⟩
        · show refillCT s ∈ [] ++ [s.before_head]
          rw [hrf, hch]
          simp
        · show s.allocCount + 1 = s.deallocCount + 1 + _
          rw [CA.cnt]
          simp only [List.nil_append, List.length_cons, List.length_append]
          omega
        · intro a ha
          have := CA.fb a ha
          show a < s.fresh + 1
          omega
      · intro e he
        simp at he
        rcases he with h | h <;> simp [h, isStoreBHEv, isStoreTailNextEv]
      · intro a h
        simp at h
      · intro a ha h
        simp at h
        exact hfrnot (h ▸ ha)
  | cons q pre' =>
      have hq : q = s.cache_head := by
        have := CA.hd
        simp at this
        exact this
      subst hq
      have hnotin : s.cache_head ∉ pre' ++ s.before_head :: live ++ others := by
        have := CA.nd
        simp only [List.cons_append] at this
        exact (List.nodup_cons.mp this).1
      have hbhq : s.before_head ≠ s.cache_head := by
        intro h
        exact hnotin (by simp [← h])
      have hct : refillCT s ≠ s.cache_head := by
        unfold refillCT
        by_cases hc : s.cache_tail = s.cache_head
        · simpa [hc] using hbhq
        · simpa [hc] using hc
      refine ⟨_, _, make_node_fail_cache s hct, ?_, rfl, rfl, rfl, rfl,
        ?_, ?_, ?_⟩
      · refine ⟨CA.seg, CA.hd, CA.lst, ?_, CA.nd, CA.perm, CA.dead, CA.livedata,
          CA.cnt, CA.fb⟩
        show refillCT s ∈ (s.cache_head :: pre') ++ [s.before_head]
        unfold refillCT
        by_cases hc : s.cache_tail = s.cache_head
        · simp [hc]
        · rw [if_neg hc]
          exact CA.ctm
      · intro e he
        simp at he
      · intro a h
        simp at h
      · intro a _ h
        simp at h

/-- `make_node_` with a successful `T`-construction: the produced node is
detached from the chain (it joins `others`), carries the constructed value,
and has a null `next`; the recycle path touches no allocator call, the
allocation path performs exactly one `allocate`. -/
theorem make_node_some {s : QState α} {pre live others : List Nat} {val : α}
    (CA : ChainAux s pre live others) :
    ∃ s4 tr x pre',
      make_node s (some val) = (s4, tr, some x) ∧
      ChainAux s4 pre' live (x :: others) ∧
      dataAt s4.heap x = some val ∧
      nextAt s4.heap x = none ∧
      (∀ a, a ≠ x → dataAt s4.heap a = dataAt s.heap a) ∧
      (∀ a, a ≠ x → nextAt s4.heap a = nextAt s.heap a) ∧
      s4.before_head = s.before_head ∧ s4.tail = s.tail ∧
      s4.deallocCount = s.deallocCount ∧
      (∀ e ∈ tr, isStoreBHEv e = false ∧ isStoreTailNextEv e = false ∧
        (∀ b, e ≠ Ev.destroyE b) ∧ (∀ b, e ≠ Ev.deallocE b)) ∧
      ((pre' = pre ∧ pre = [] ∧ x = s.fresh ∧
          tr = [Ev.allocE x, Ev.constructE x] ∧
          s4.allocCount = s.allocCount + 1) ∨
        (pre = x :: pre' ∧ x = s.cache_head ∧ tr = [Ev.constructE x] ∧
          s4.allocCount = s.allocCount)) := by
  cases pre with
  | nil =>
      obtain ⟨s4, hmk, hCA, hdata, hnext, hdne, hnne, hbh, htl, hcnt, hdc,
        hfr, hkeys⟩ := @make_node_alloc _ _ _ _ val CA
      refine ⟨s4, _, s.fresh, [], hmk, hCA, hdata, hnext, hdne, hnne, hbh, htl,
        hdc, ?_, Or.inl ⟨rfl, rfl, rfl, rfl, hcnt⟩⟩
      intro e he
      simp at he
      rcases he with h | h <;>
        simp [h, isStoreBHEv, isStoreTailNextEv]
  | cons q pre' =>
      have hq : q = s.cache_head := by
        have := CA.hd
        simp at this
        exact this
      subst hq
      obtain ⟨s4, hmk, hCA, hdata, hnext, hdne, hnne, hbh, htl, hcnt, hdc,
        hfr, hkeys, _⟩ := @make_node_recycle _ _ _ _ _ val CA
      refine ⟨s4, _, s.cache_head, pre', hmk, hCA, hdata, hnext, hdne, hnne,
        hbh, htl, hdc, ?_, Or.inr ⟨rfl, rfl, rfl, hcnt⟩⟩
      intro e he
      simp at he
      simp [he, isStoreBHEv, isStoreTailNextEv]

/-- Publication: a single release store of the head of a fully constructed
detached chain into `tail_->next`, followed by the producer-local update of
`tail_`, appends the whole detached chain to the live region.  The final
state is abstracted by its field equations so the lemma applies to any
syntactic presentation of it. -/
theorem publish_chain {s : QState α} {pre live stg : List Nat} {ih it : Nat}
    (CA : ChainAux s pre live stg)
    (hstg : chseg s.heap stg none)
    (hhead : stg.head? = some ih) (hlastS : stg.getLast? = some it)
    (hdata : ∀ a ∈ stg, (dataAt s.heap a).isSome = true)
    (s2 : QState α)
    (h2heap : s2.heap = (setNext s s.tail (some ih)).heap)
    (h2fresh : s2.fresh = s.fresh) (h2a : s2.allocCount = s.allocCount)
    (h2d : s2.deallocCount = s.deallocCount) (h2t : s2.tail = it)
    (h2bh : s2.before_head = s.before_head) (h2ct : s2.cache_tail = s.cache_tail)
    (h2ch : s2.cache_head = s.cache_head) :
    ChainAux s2 pre (live ++ stg) [] := by
  have hstgne : stg ≠ [] := by
    intro h
    rw [h] at hhead
    simp at hhead
  have htailmem_bl : s.tail ∈ s.before_head :: live := mem_of_getLast?_eq CA.lst
  have htailmem : s.tail ∈ keys s.heap := by
    apply CA.mem_keys
    simp only [List.mem_append, List.mem_cons] at htailmem_bl ⊢
    tauto
  have htailget : (hget s.heap s.tail).isSome = true :=
    hget_isSome_iff_mem_keys.mpr htailmem
  -- the chain is disjoint from the detached segment
  have hdisj : ∀ a ∈ pre ++ s.before_head :: live, a ∉ stg := by
    intro a ha
    have hnd := CA.nd
    have h2 : ((pre ++ s.before_head :: live) ++ stg).Nodup := by
      simpa [List.append_assoc] using hnd
    exact List.disjoint_of_nodup_append h2 ha
  have htailnotstg : s.tail ∉ stg := by
    apply hdisj
    simp only [List.mem_append, List.mem_cons] at htailmem_bl ⊢
    tauto
  have hSnext_self : nextAt (setNext s s.tail (some ih)).heap s.tail = some ih :=
    nextAt_setNext_self _ _ _ htailget
  have hSnext_ne : ∀ a, a ≠ s.tail →
      nextAt (setNext s s.tail (some ih)).heap a = nextAt s.heap a :=
    fun a ha => nextAt_setNext_ne _ _ _ ha
  have hSdata : ∀ a, dataAt (setNext s s.tail (some ih)).heap a = dataAt s.heap a :=
    fun a => dataAt_setNext _ _ _ a
  have hSkeys : keys (setNext s s.tail (some ih)).heap = keys s.heap :=
    keys_setNext _ _ _
  have hchain_nodup : (pre ++ s.before_head :: live).Nodup := by
    have hnd := CA.nd
    have h2 : ((pre ++ s.before_head :: live) ++ stg).Nodup := by
      simpa [List.append_assoc] using hnd
    exact h2.of_append_left
  have hchain_last : (pre ++ s.before_head :: live).getLast? = some s.tail := by
    rw [List.getLast?_append_of_ne_nil pre (by simp)]
    exact CA.lst
  have hseg1 : chseg (setNext s s.tail (some ih)).heap
      (pre ++ s.before_head :: live) (some ih) := by
    apply chseg_set_stop CA.seg hchain_last hchain_nodup
    · intro a _ ha
      exact hSnext_ne a ha
    · exact hSnext_self
  have hseg2 : chseg (setNext s s.tail (some ih)).heap stg none := by
    apply chseg_congr (h := s.heap)
    · intro a ha
      exact hSnext_ne a (by intro h; exact htailnotstg (h ▸ ha))
    · exact hstg
  have hseg3 : chseg (setNext s s.tail (some ih)).heap
      ((pre ++ s.before_head :: live) ++ stg) none := by
    apply chseg_append
    · rw [headO_eq_head? hstgne none, hhead]
      exact hseg1
    · exact hseg2
  constructor
  case seg =>
      rw [h2heap, h2bh]
      have heq : pre ++ s.before_head :: (live ++ stg) =
          (pre ++ s.before_head :: live) ++ stg := by
        simp [List.append_assoc]
      show chseg _ (pre ++ s.before_head :: (live ++ stg)) none
      rw [heq]
      exact hseg3
  case hd =>
      rw [h2bh, h2ch]
      have h1 := CA.hd
      cases pre <;> simpa using h1
  case lst =>
      rw [h2bh, h2t]
      show (s.before_head :: (live ++ stg)).getLast? = some it
      have heq : s.before_head :: (live ++ stg) =
          (s.before_head :: live) ++ stg := by
        simp
      rw [heq, List.getLast?_append_of_ne_nil _ hstgne]
      exact hlastS
  case ctm =>
      rw [h2ct, h2bh]
      exact CA.ctm
  case nd =>
      rw [h2bh]
      have hnd := CA.nd
      simp only [List.append_nil, List.append_assoc] at hnd ⊢
      simpa using hnd
  case perm =>
      rw [h2heap, h2bh, hSkeys]
      have h1 := CA.perm
      simp only [List.append_nil, List.append_assoc] at h1 ⊢
      simpa using h1
  case dead =>
      intro a ha
      rw [h2bh] at ha
      rw [h2heap, hSdata]
      exact CA.dead a ha
  case livedata =>
      intro a ha
      rw [h2heap, hSdata]
      rcases List.mem_append.mp ha with h | h
      · exact CA.livedata a h
      · exact hdata a h
  case cnt =>
      rw [h2a, h2d, h2bh, CA.cnt]
      simp only [List.append_nil, List.length_append, List.length_cons]
      omega
  case fb =>
      intro a ha
      rw [h2heap, hSkeys] at ha
      rw [h2fresh]
      exact CA.fb a ha

/-- `emplace` with a successful construction: the new node is appended to
the live region; the recycle path performs no allocator call. -/
theorem emplace_some {s : QState α} {pre live : List Nat} {val : α}
    (CA : ChainAux s pre live []) :
    ∃ s' tr x pre',
      emplace s (some val) = (s', tr ++ [Ev.storeTailNext x], true) ∧
      ChainAux s' pre' (live ++ [x]) [] ∧
      dataAt s'.heap x = some val ∧
      (∀ a ∈ live, dataAt s'.heap a = dataAt s.heap a) ∧
      s'.before_head = s.before_head ∧
      s'.deallocCount = s.deallocCount ∧
      ((pre' = pre ∧ pre = [] ∧ x = s.fresh ∧ tr = [Ev.allocE x, Ev.constructE x] ∧
          s'.allocCount = s.allocCount + 1) ∨
        (pre = x :: pre' ∧ x = s.cache_head ∧ tr = [Ev.constructE x] ∧
          s'.allocCount = s.allocCount)) := by
  obtain ⟨s4, tr, x, pre', hmk, CA4, hdata, hnext, hdne, hnne, hbh, htl, hdc,
    htr, hcase⟩ := @make_node_some _ _ _ _ _ val CA
  have hemp : emplace s (some val) =
      ({ setNext s4 s4.tail (some x) with tail := x },
        tr ++ [Ev.storeTailNext x], true) := by
    simp only [emplace, hmk]
  have hxnotchain : ∀ a ∈ pre' ++ s4.before_head :: live, a ≠ x := by
    intro a ha hax
    subst hax
    have hnd := CA4.nd
    have h2 : ((pre' ++ s4.before_head :: live) ++ [a]).Nodup := by
      simpa [List.append_assoc] using hnd
    exact List.disjoint_of_nodup_append h2 ha (by simp)
  have hCA' : ChainAux ({ setNext s4 s4.tail (some x) with tail := x })
      pre' (live ++ [x]) [] := by
    refine publish_chain CA4 ?_ rfl rfl ?_ _ rfl (by simp) (by simp) (by simp)
      rfl (by simp) (by simp) (by simp)
    · exact ⟨hnext, trivial⟩
    · intro a ha
      simp at ha
      subst ha
      rw [hdata]
      rfl
  refine ⟨_, tr, x, pre', hemp, hCA', ?_, ?_, ?_, ?_, ?_⟩
  · show dataAt (setNext s4 s4.tail (some x)).heap x = some val
    rw [dataAt_setNext]
    exact hdata
  · intro a ha
    show dataAt (setNext s4 s4.tail (some x)).heap a = dataAt s.heap a
    rw [dataAt_setNext]
    exact hdne a (hxnotchain a (by simp [ha]))
  · show (setNext s4 s4.tail (some x)).before_head = s.before_head
    rw [setNext_before_head]
    exact hbh
  · show (setNext s4 s4.tail (some x)).deallocCount = s.deallocCount
    rw [setNext_deallocCount]
    exact hdc
  · rcases hcase with ⟨h1, h2, h3, h4, h5⟩ | ⟨h1, h2, h3, h4⟩
    · exact Or.inl ⟨h1, h2, h3, h4, by
        show (setNext s4 s4.tail (some x)).allocCount = s.allocCount + 1
        rw [setNext_allocCount]; exact h5⟩
    · exact Or.inr ⟨h1, h2, h3, by
        show (setNext s4 s4.tail (some x)).allocCount = s.allocCount
        rw [setNext_allocCount]; exact h4⟩

/-- `emplace` with a throwing construction: the exception propagates and
the queue is observably unchanged. -/
theorem emplace_fail {s : QState α} {pre live : List Nat}
    (CA : ChainAux s pre live []) :
    ∃ s' tr, emplace s none = (s', tr, false) ∧ ChainAux s' pre live [] ∧
      s'.heap = s.heap ∧ s'.before_head = s.before_head ∧ s'.tail = s.tail ∧
      s'.cache_head = s.cache_head := by
  obtain ⟨s', tr, hmk, hCA, hheap, hbh, htl, hch, _, _, _⟩ := make_node_fail CA
  exact ⟨s', tr, by simp only [emplace, hmk], hCA, hheap, hbh, htl, hch⟩

/-- `pop` on an empty queue is the identity, returning `false` and leaving
the out-slot untouched. -/
theorem pop_empty_of_headAddr {s : QState α} (out : α) (h : headAddr s = none) :
    pop s out = (s, [], false, out) := by
  simp [pop, h]

/-- Advancing `before_head` to the popped node after destroying its data
preserves the chain invariant (final state given by field equations). -/
theorem pop_advance {s : QState α} {pre live' : List Nat} {x : Nat}
    (CA : ChainAux s pre (x :: live') [])
    (s2 : QState α)
    (h2heap : s2.heap = (setData s x none).heap)
    (h2fresh : s2.fresh = s.fresh) (h2a : s2.allocCount = s.allocCount)
    (h2d : s2.deallocCount = s.deallocCount) (h2t : s2.tail = s.tail)
    (h2bh : s2.before_head = x) (h2ct : s2.cache_tail = s.cache_tail)
    (h2ch : s2.cache_head = s.cache_head) :
    ChainAux s2 (pre ++ [s.before_head]) live' [] := by
  have hxmem : x ∈ keys s.heap := CA.mem_keys (by simp)
  have hxnot : ∀ a ∈ pre ++ [s.before_head], a ≠ x := by
    intro a ha hax
    subst hax
    have hnd := CA.nd
    have h2 : ((pre ++ [s.before_head]) ++ a :: live').Nodup := by
      simpa [List.append_assoc] using hnd
    exact List.disjoint_of_nodup_append h2 ha (by simp)
  have hxnotlive : x ∉ live' := by
    have hnd := CA.nd
    have h2 : (pre ++ s.before_head :: x :: live').Nodup := by
      simpa using hnd
    have h3 : (s.before_head :: x :: live').Nodup := h2.of_append_right
    exact (List.nodup_cons.mp (List.nodup_cons.mp h3).2).1
  have hSdata_ne : ∀ a, a ≠ x → dataAt s2.heap a = dataAt s.heap a := by
    intro a ha
    rw [h2heap]
    exact dataAt_setData_ne _ _ _ ha
  have hSdata_self : dataAt s2.heap x = none := by
    rw [h2heap]
    exact dataAt_setData_self _ _ _ (hget_isSome_iff_mem_keys.mpr hxmem)
  have hSnext : ∀ a, nextAt s2.heap a = nextAt s.heap a := by
    intro a
    rw [h2heap]
    exact nextAt_setData _ _ _ a
  have hSkeys : keys s2.heap = keys s.heap := by
    rw [h2heap]
    exact keys_setData _ _ _
  constructor
  case seg =>
      rw [h2bh]
      have heq : (pre ++ [s.before_head]) ++ x :: live' =
          pre ++ s.before_head :: x :: live' := by
        simp
      rw [heq]
      exact chseg_congr (fun a _ => hSnext a) CA.seg
  case hd =>
      rw [h2bh, h2ch]
      have h1 := CA.hd
      cases pre <;> simpa using h1
  case lst =>
      rw [h2bh, h2t]
      have h1 := CA.lst
      rwa [List.getLast?_cons_cons] at h1
  case ctm =>
      rw [h2ct, h2bh]
      have h1 := CA.ctm
      simp only [List.mem_append, List.mem_cons] at h1 ⊢
      tauto
  case nd =>
      rw [h2bh]
      have hnd := CA.nd
      simp only [List.append_nil, List.append_assoc] at hnd ⊢
      simpa using hnd
  case perm =>
      rw [hSkeys, h2bh]
      have h1 := CA.perm
      simp only [List.append_nil, List.append_assoc] at h1 ⊢
      simpa using h1
  case dead =>
      intro a ha
      rw [h2bh] at ha
      rcases List.mem_append.mp ha with h | h
      · rw [hSdata_ne a (hxnot a h)]
        apply CA.dead
        simp only [List.mem_append, List.mem_cons] at h ⊢
        tauto
      · simp at h
        subst h
        exact hSdata_self
  case livedata =>
      intro a ha
      have hax : a ≠ x := by
        intro h
        subst h
        exact hxnotlive ha
      rw [hSdata_ne a hax]
      exact CA.livedata a (by simp [ha])
  case cnt =>
      rw [h2a, h2d, h2bh, CA.cnt]
      simp only [List.append_nil, List.length_append, List.length_cons,
        List.length_nil]
      omega
  case fb =>
      intro a ha
      rw [hSkeys] at ha
      rw [h2fresh]
      exact CA.fb a ha

/-- The full `pop` specification on a non-empty queue: it returns `true`
and the front value, destroys the front `data` slot, and advances
`before_head` to the popped node. -/
theorem pop_spec_cons {s : QState α} {pre live' : List Nat} {x : Nat}
    (out : α) (CA : ChainAux s pre (x :: live') []) :
    ∃ v, dataAt s.heap x = some v ∧
      pop s out = ({ setData s x none with before_head := x },
        [Ev.destroyE x, Ev.storeBH x], true, v) ∧
      ChainAux (pop s out).1 (pre ++ [s.before_head]) live' [] ∧
      (∀ a, a ≠ x → dataAt (pop s out).1.heap a = dataAt s.heap a) := by
  have hhd : headAddr s = some x := by
    rw [CA.headAddr_eq]
    rfl
  obtain ⟨v, hv⟩ := Option.isSome_iff_exists.mp (CA.livedata x (by simp))
  have hpop : pop s out = ({ setData s x none with before_head := x },
      [Ev.destroyE x, Ev.storeBH x], true, v) := by
    simp [pop, hhd, hv]
  refine ⟨v, hv, hpop, ?_, ?_⟩
  · rw [hpop]
    exact pop_advance CA _ rfl (by simp) (by simp) (by simp) (by simp) rfl
      (by simp) (by simp)
  · intro a ha
    rw [hpop]
    show dataAt (setData s x none).heap a = dataAt s.heap a
    exact dataAt_setData_ne _ _ _ ha

/-- `pop` on a state whose live region is empty. -/
theorem pop_spec_nil {s : QState α} {pre : List Nat} (out : α)
    (CA : ChainAux s pre [] []) :
    pop s out = (s, [], false, out) :=
  pop_empty_of_headAddr out (by rw [CA.headAddr_eq]; rfl)

/-- The invariant holds for the freshly constructed queue. -/
theorem initState_inv : ChainAux (initState (α := α)) [] [] [] := by
  constructor
  case seg => exact ⟨rfl, trivial⟩
  case hd => rfl
  case lst => rfl
  case ctm => simp [initState]
  case nd => simp
  case perm => rfl
  case dead =>
      intro a ha
      simp only [initState, List.nil_append, List.mem_singleton] at ha
      subst ha
      rfl
  case livedata => intro a ha; simp at ha
  case cnt => rfl
  case fb =>
      intro a ha
      simp [initState, keys] at ha
      simp [ha, initState]

/-- Storing into the `next` field of a node outside the chain (a detached
node) preserves the chain invariant. -/
theorem ChainAux.setNext_other {s : QState α} {pre live others : List Nat}
    {t : Nat} (CA : ChainAux s pre live others)
    (ht : t ∉ pre ++ s.before_head :: live) (nx : Option Nat) :
    ChainAux (setNext s t nx) pre live others := by
  constructor
  case seg =>
      rw [setNext_before_head]
      apply chseg_congr (h := s.heap) ?_ CA.seg
      intro a ha
      refine nextAt_setNext_ne _ _ _ ?_
      intro h
      exact ht (h ▸ ha)
  case hd =>
      rw [setNext_before_head, setNext_cache_head]
      exact CA.hd
  case lst =>
      rw [setNext_before_head, setNext_tail]
      exact CA.lst
  case ctm =>
      rw [setNext_cache_tail, setNext_before_head]
      exact CA.ctm
  case nd =>
      rw [setNext_before_head]
      exact CA.nd
  case perm =>
      rw [keys_setNext, setNext_before_head]
      exact CA.perm
  case dead =>
      intro a ha
      rw [setNext_before_head] at ha
      rw [dataAt_setNext]
      exact CA.dead a ha
  case livedata =>
      intro a ha
      rw [dataAt_setNext]
      exact CA.livedata a ha
  case cnt =>
      rw [setNext_allocCount, setNext_deallocCount, setNext_before_head]
      exact CA.cnt
  case fb =>
      intro a ha
      rw [keys_setNext] at ha
      rw [setNext_fresh]
      exact CA.fb a ha

/-- The staging loop of the range push, on an all-successful suffix of the
input: it extends the detached private chain by one node per element,
touching no shared location and never destroying or deallocating. -/
theorem stageLoop_ok (vals : List α) :
    ∀ (s : QState α) (pre live stg : List Nat) (it : Nat),
    ChainAux s pre live stg →
    chseg s.heap stg none →
    stg.getLast? = some it →
    (∀ a ∈ stg, (dataAt s.heap a).isSome = true) →
    ∃ s' tr stgNew it' pre',
      stageLoop s it (vals.map some) = (s', tr, some it') ∧
      ChainAux s' pre' live (stg ++ stgNew) ∧
      chseg s'.heap (stg ++ stgNew) none ∧
      (stg ++ stgNew).getLast? = some it' ∧
      stgNew.length = vals.length ∧
      (∀ a ∈ stg ++ stgNew, (dataAt s'.heap a).isSome = true) ∧
      s'.before_head = s.before_head ∧ s'.tail = s.tail ∧
      s'.deallocCount = s.deallocCount ∧
      (∀ a ∈ live, dataAt s'.heap a = dataAt s.heap a) ∧
      (∀ e ∈ tr, isStoreBHEv e = false ∧ isStoreTailNextEv e = false ∧
        (∀ b, e ≠ Ev.destroyE b) ∧ (∀ b, e ≠ Ev.deallocE b)) := by
  induction vals with
  | nil =>
      intro s pre live stg it CA hstg hlastS hdata
      exact ⟨s, [], [], it, pre, rfl, by simpa using CA, by simpa using hstg,
        by simpa using hlastS, rfl, by simpa using hdata, rfl, rfl, rfl,
        fun a _ => rfl, by simp⟩
  | cons v rest ih =>
      intro s pre live stg it CA hstg hlastS hdata
      obtain ⟨s4, tr0, x, pre2, hmk, CA4, hdx, hnx, hdne, hnne, hbh4, htl4,
        hdc4, htr0, _⟩ := @make_node_some _ _ _ _ _ v CA
      -- x is fresh relative to the old staged chain
      have hxstg : x ∉ stg := by
        have hnd := CA4.nd
        have h2 : ((pre2 ++ s4.before_head :: live) ++ x :: stg).Nodup := by
          simpa [List.append_assoc] using hnd
        have h3 : (x :: stg).Nodup := h2.of_append_right
        exact (List.nodup_cons.mp h3).1
      have hitstg : it ∈ stg := mem_of_getLast?_eq hlastS
      have hitx : it ≠ x := by
        intro h
        exact hxstg (h ▸ hitstg)
      -- reorder the detached nodes
      have CA4' : ChainAux s4 pre2 live (stg ++ [x]) :=
        CA4.permOthers (List.perm_append_singleton x stg).symm
      have hitchain : it ∉ pre2 ++ s4.before_head :: live := by
        intro h
        have hnd := CA4'.nd
        have h2 : ((pre2 ++ s4.before_head :: live) ++ (stg ++ [x])).Nodup := by
          simpa [List.append_assoc] using hnd
        exact List.disjoint_of_nodup_append h2 h (by simp [hitstg])
      have hitmem : it ∈ keys s4.heap :=
        CA4'.mem_keys (by simp [hitstg])
      -- link the old insert_tail to the new node
      have CA5 : ChainAux (setNext s4 it (some x)) pre2 live (stg ++ [x]) :=
        CA4'.setNext_other hitchain (some x)
      have hstg4 : chseg s4.heap stg none := by
        apply chseg_congr (h := s.heap) ?_ hstg
        intro a ha
        refine hnne a ?_
        intro h
        exact hxstg (h ▸ ha)
      have hseg5 : chseg (setNext s4 it (some x)).heap (stg ++ [x]) none := by
        apply chseg_append
        · rw [headO_eq_head? (by simp) none]
          simp only [List.head?_cons]
          apply chseg_set_stop hstg4 hlastS ?_ ?_ ?_
          · have hnd := CA4'.nd
            have h2 : ((pre2 ++ s4.before_head :: live) ++ (stg ++ [x])).Nodup := by
              simpa [List.append_assoc] using hnd
            exact (h2.of_append_right).of_append_left
          · intro a _ ha
            exact nextAt_setNext_ne _ _ _ ha
          · exact nextAt_setNext_self _ _ _ (hget_isSome_iff_mem_keys.mpr hitmem)
        · refine ⟨?_, trivial⟩
          rw [nextAt_setNext_ne _ _ _ (Ne.symm hitx)]
          exact hnx
      have hdata5 : ∀ a ∈ stg ++ [x],
          (dataAt (setNext s4 it (some x)).heap a).isSome = true := by
        intro a ha
        rw [dataAt_setNext]
        rcases List.mem_append.mp ha with h | h
        · have hax : a ≠ x := by
            intro hh
            exact hxstg (hh ▸ h)
          rw [hdne a hax]
          exact hdata a h
        · simp at h
          subst h
          rw [hdx]
          rfl
      obtain ⟨s', tr', stgNew', it', pre', hloop, CA', hseg', hlast', hlen',
        hdata', hbh', htl', hdc', hlive', htr'⟩ :=
        ih (setNext s4 it (some x)) pre2 live (stg ++ [x]) x CA5 hseg5
          (List.getLast?_concat _) hdata5
      refine ⟨s', tr0 ++ Ev.linkRelaxed it x :: tr', x :: stgNew', it', pre',
        ?_, ?_, ?_, ?_, ?_, ?_, ?_, ?_, ?_, ?_, ?_⟩
      · show stageLoop s it (some v :: rest.map some) = (s', _, some it')
        simp only [stageLoop, hmk, hloop]
      · have heq : stg ++ x :: stgNew' = (stg ++ [x]) ++ stgNew' := by
          simp
        rw [heq]
        exact CA'
      · have heq : stg ++ x :: stgNew' = (stg ++ [x]) ++ stgNew' := by
          simp
        rw [heq]
        exact hseg'
      · have heq : stg ++ x :: stgNew' = (stg ++ [x]) ++ stgNew' := by
          simp
        rw [heq]
        exact hlast'
      · simp [hlen']
      · intro a ha
        have heq : stg ++ x :: stgNew' = (stg ++ [x]) ++ stgNew' := by
          simp
        rw [heq] at ha
        exact hdata' a ha
      · rw [hbh']
        rw [setNext_before_head]
        exact hbh4
      · rw [htl']
        rw [setNext_tail]
        exact htl4
      · rw [hdc']
        rw [setNext_deallocCount]
        exact hdc4
      · intro c hc
        rw [hlive' c hc, dataAt_setNext]
        refine hdne c ?_
        intro h
        subst h
        have hnd := CA4.nd
        have h2 : ((pre2 ++ s4.before_head :: live) ++ c :: stg).Nodup := by
          simpa [List.append_assoc] using hnd
        have hmem1 : c ∈ pre2 ++ s4.before_head :: live := by
          simp only [List.mem_append, List.mem_cons]
          exact Or.inr (Or.inr hc)
        exact List.disjoint_of_nodup_append h2 hmem1 (by simp)
      · intro e he
        simp only [List.mem_append, List.mem_cons] at he
        rcases he with h | h | h
        · exact ⟨(htr0 e h).1, (htr0 e h).2.1, (htr0 e h).2.2.1, (htr0 e h).2.2.2⟩
        · subst h
          refine ⟨rfl, rfl, ?_, ?_⟩ <;> intro b <;> simp
        · exact htr' e h

/-- The last live node (the producer's `tail_`) always has a null `next`. -/
theorem ChainAux.tail_next_none {s : QState α} {pre live others : List Nat}
    (CA : ChainAux s pre live others) : nextAt s.heap s.tail = none := by
  refine chseg_last_next CA.seg ?_
  rw [List.getLast?_append_of_ne_nil pre (by simp)]
  exact CA.lst

/-- The staging loop of the range push when the `T`-construction of one
element throws: the loop stops with the private chain built so far, one
node per successfully constructed element, and the queue region untouched. -/
theorem stageLoop_fail (good : List α) :
    ∀ (rest : List (Option α)) (s : QState α) (pre live stg : List Nat) (it : Nat),
    ChainAux s pre live stg →
    chseg s.heap stg none →
    stg.getLast? = some it →
    (∀ a ∈ stg, (dataAt s.heap a).isSome = true) →
    ∃ s' tr stgNew pre',
      stageLoop s it (good.map some ++ none :: rest) = (s', tr, none) ∧
      ChainAux s' pre' live (stg ++ stgNew) ∧
      chseg s'.heap (stg ++ stgNew) none ∧
      stgNew.length = good.length ∧
      s'.before_head = s.before_head ∧ s'.tail = s.tail ∧
      (∀ a ∈ live, dataAt s'.heap a = dataAt s.heap a) ∧
      (∀ e ∈ tr, isStoreBHEv e = false ∧ isStoreTailNextEv e = false ∧
        (∀ b, e ≠ Ev.destroyE b)) ∧
      (∀ a ∈ keys s'.heap, Ev.deallocE a ∉ tr) := by
  induction good with
  | nil =>
      intro rest s pre live stg it CA hstg hlastS hdata
      obtain ⟨s1, tr, hmk, hCA, hheap, hbh, htl, _, htr, hdes, hdea⟩ :=
        make_node_fail CA
      refine ⟨s1, tr, [], pre, ?_, by simpa using hCA, ?_, rfl, hbh, htl,
        ?_, ?_, ?_⟩
      · show stageLoop s it (none :: rest) = (s1, tr, none)
        simp only [stageLoop, hmk]
      · rw [hheap]
        simpa using hstg
      · intro a _
        rw [hheap]
      · intro e he
        exact ⟨(htr e he).1, (htr e he).2, fun b hb => hdes b (hb ▸ he)⟩
      · intro a ha
        rw [hheap] at ha
        exact hdea a ha
  | cons g good' ih =>
      intro rest s pre live stg it CA hstg hlastS hdata
      obtain ⟨s4, tr0, xnew, pre2, hmk, CA4, hdx, hnx, hdne, hnne, hbh4, htl4,
        hdc4, htr0, _⟩ := @make_node_some _ _ _ _ _ g CA
      have hxstg : xnew ∉ stg := by
        have hnd := CA4.nd
        have h2 : ((pre2 ++ s4.before_head :: live) ++ xnew :: stg).Nodup := by
          simpa [List.append_assoc] using hnd
        have h3 : (xnew :: stg).Nodup := h2.of_append_right
        exact (List.nodup_cons.mp h3).1
      have hitstg : it ∈ stg := mem_of_getLast?_eq hlastS
      have hitx : it ≠ xnew := fun h => hxstg (h ▸ hitstg)
      have CA4' : ChainAux s4 pre2 live (stg ++ [xnew]) :=
        CA4.permOthers (List.perm_append_singleton xnew stg).symm
      have hitchain : it ∉ pre2 ++ s4.before_head :: live := by
        intro h
        have hnd := CA4'.nd
        have h2 : ((pre2 ++ s4.before_head :: live) ++ (stg ++ [xnew])).Nodup := by
          simpa [List.append_assoc] using hnd
        exact List.disjoint_of_nodup_append h2 h (by simp [hitstg])
      have hitmem : it ∈ keys s4.heap := CA4'.mem_keys (by simp [hitstg])
      have CA5 : ChainAux (setNext s4 it (some xnew)) pre2 live (stg ++ [xnew]) :=
        CA4'.setNext_other hitchain (some xnew)
      have hstg4 : chseg s4.heap stg none := by
        apply chseg_congr (h := s.heap) ?_ hstg
        intro a ha
        refine hnne a ?_
        intro h
        exact hxstg (h ▸ ha)
      have hseg5 : chseg (setNext s4 it (some xnew)).heap (stg ++ [xnew]) none := by
        apply chseg_append
        · rw [headO_eq_head? (by simp) none]
          simp only [List.head?_cons]
          apply chseg_set_stop hstg4 hlastS ?_ ?_ ?_
          · have hnd := CA4'.nd
            have h2 : ((pre2 ++ s4.before_head :: live) ++ (stg ++ [xnew])).Nodup := by
              simpa [List.append_assoc] using hnd
            exact (h2.of_append_right).of_append_left
          · intro a _ ha
            exact nextAt_setNext_ne _ _ _ ha
          · exact nextAt_setNext_self _ _ _ (hget_isSome_iff_mem_keys.mpr hitmem)
        · refine ⟨?_, trivial⟩
          rw [nextAt_setNext_ne _ _ _ (Ne.symm hitx)]
          exact hnx
      have hdata5 : ∀ a ∈ stg ++ [xnew],
          (dataAt (setNext s4 it (some xnew)).heap a).isSome = true := by
        intro a ha
        rw [dataAt_setNext]
        rcases List.mem_append.mp ha with h | h
        · have hax : a ≠ xnew := fun hh => hxstg (hh ▸ h)
          rw [hdne a hax]
          exact hdata a h
        · simp at h
          subst h
          rw [hdx]
          rfl
      obtain ⟨s', tr', stgNew', pre', hloop, CA', hseg', hlen', hbh', htl',
        hlive', htr', hdea'⟩ :=
        ih rest (setNext s4 it (some xnew)) pre2 live (stg ++ [xnew]) xnew CA5
          hseg5 (List.getLast?_concat _) hdata5
      refine ⟨s', tr0 ++ Ev.linkRelaxed it xnew :: tr', xnew :: stgNew', pre',
        ?_, ?_, ?_, ?_, ?_, ?_, ?_, ?_, ?_⟩
      · show stageLoop s it (some g :: (good'.map some ++ none :: rest)) =
          (s', _, none)
        simp only [stageLoop, hmk, hloop]
      · have heq : stg ++ xnew :: stgNew' = (stg ++ [xnew]) ++ stgNew' := by
          simp
        rw [heq]
        exact CA'
      · have heq : stg ++ xnew :: stgNew' = (stg ++ [xnew]) ++ stgNew' := by
          simp
        rw [heq]
        exact hseg'
      · simp [hlen']
      · rw [hbh', setNext_before_head]
        exact hbh4
      · rw [htl', setNext_tail]
        exact htl4
      · intro c hc
        rw [hlive' c hc, dataAt_setNext]
        refine hdne c ?_
        intro h
        subst h
        have hnd := CA4.nd
        have h2 : ((pre2 ++ s4.before_head :: live) ++ c :: stg).Nodup := by
          simpa [List.append_assoc] using hnd
        have hmem1 : c ∈ pre2 ++ s4.before_head :: live := by
          simp only [List.mem_append, List.mem_cons]
          exact Or.inr (Or.inr hc)
        exact List.disjoint_of_nodup_append h2 hmem1 (by simp)
      · intro e he
        simp only [List.mem_append, List.mem_cons] at he
        rcases he with h | h | h
        · exact ⟨(htr0 e h).1, (htr0 e h).2.1, (htr0 e h).2.2.1⟩
        · subst h
          refine ⟨rfl, rfl, ?_⟩
          intro b
          simp
        · exact htr' e h
      · intro a ha he
        simp only [List.mem_append, List.mem_cons] at he
        rcases he with h | h | h
        · exact ((htr0 _ h).2.2.2 a) rfl
        · simp at h
        · exact hdea' a ha h

/-- The cleanup walk over a detached null-terminated chain: destroy each
`data`, return each node to the allocator, in chain order. -/
theorem cleanupLoop_spec (stg : List Nat) :
    ∀ (s : QState α) (fuel : Nat),
    chseg s.heap stg none → stg.Nodup →
    (∀ a ∈ stg, a ∈ keys s.heap) → (keys s.heap).Nodup →
    stg.length ≤ fuel →
    ∃ s', cleanupLoop s (headO stg none) fuel =
        (s', stg.flatMap (fun a => [Ev.destroyE a, Ev.deallocE a])) ∧
      (∀ b, b ∉ stg → hget s'.heap b = hget s.heap b) ∧
      (keys s.heap).Perm (stg ++ keys s'.heap) ∧
      (keys s'.heap).Nodup ∧
      s'.deallocCount = s.deallocCount + stg.length ∧
      s'.allocCount = s.allocCount ∧ s'.fresh = s.fresh ∧ s'.tail = s.tail ∧
      s'.before_head = s.before_head ∧ s'.cache_tail = s.cache_tail ∧
      s'.cache_head = s.cache_head := by
  induction stg with
  | nil =>
      intro s fuel _ _ _ hknd _
      cases fuel with
      | zero => exact ⟨s, rfl, fun b _ => rfl, by simp, hknd, by simp, rfl,
          rfl, rfl, rfl, rfl, rfl⟩
      | succ fuel => exact ⟨s, rfl, fun b _ => rfl, by simp, hknd, by simp,
          rfl, rfl, rfl, rfl, rfl, rfl⟩
  | cons a stg' ih =>
      intro s fuel hseg hnd hmem hknd hfuel
      cases fuel with
      | zero => simp at hfuel
      | succ fuel =>
          have hanot : a ∉ stg' := (List.nodup_cons.mp hnd).1
          have hamem : a ∈ keys s.heap := hmem a (by simp)
          -- the state after destroying and deallocating `a`
          set s2 : QState α := deallocNode (setData s a none) a with hs2
          have hs2get_ne : ∀ b, b ≠ a → hget s2.heap b = hget s.heap b := by
            intro b hb
            rw [hs2]
            show hget (hdel (setData s a none).heap a) b = hget s.heap b
            rw [hget_hdel_ne hb]
            unfold setData
            cases hg : hget s.heap a with
            | none => rfl
            | some n => exact hget_hset_ne _ hb
          have hs2keys_perm : (keys s.heap).Perm (a :: keys s2.heap) := by
            have h1 : keys (setData s a none).heap = keys s.heap :=
              keys_setData _ _ _
            have h2 : (keys (setData s a none).heap).Perm
                (a :: keys (hdel (setData s a none).heap a)) := by
              apply keys_hdel_perm
              · rw [h1]
                exact hknd
              · rw [h1]
                exact hamem
            rw [h1] at h2
            exact h2
          have hs2knd : (keys s2.heap).Nodup := by
            have := hs2keys_perm.nodup_iff.mp hknd
            exact (List.nodup_cons.mp this).2
          have hseg2 : chseg s2.heap stg' none := by
            apply chseg_congr (h := s.heap) ?_ hseg.2
            intro b hb
            have hba : b ≠ a := fun h => hanot (h ▸ hb)
            show nextAt s2.heap b = nextAt s.heap b
            unfold nextAt
            rw [hs2get_ne b hba]
          have hmem2 : ∀ b ∈ stg', b ∈ keys s2.heap := by
            intro b hb
            have hba : b ≠ a := fun h => hanot (h ▸ hb)
            rw [← hget_isSome_iff_mem_keys, hs2get_ne b hba,
              hget_isSome_iff_mem_keys]
            exact hmem b (by simp [hb])
          obtain ⟨s', hrun, hget', hperm', hknd', hdc', hac', hfr', htl', hbh',
            hct', hch'⟩ := ih s2 fuel hseg2 (List.nodup_cons.mp hnd).2 hmem2
              hs2knd (by simpa using hfuel)
          refine ⟨s', ?_, ?_, ?_, hknd', ?_, by simp [hac', hs2],
            by simp [hfr', hs2], by simp [htl', hs2], by simp [hbh', hs2],
            by simp [hct', hs2], by simp [hch', hs2]⟩
          · show cleanupLoop s (some a) (fuel + 1) = _
            simp only [cleanupLoop]
            have hnx : nextAt s.heap a = headO stg' none := hseg.1
            rw [show (cleanupLoop (deallocNode (setData s a none) a)
                (nextAt s.heap a) fuel) =
              (cleanupLoop s2 (headO stg' none) fuel) by rw [hnx, hs2]]
            rw [hrun]
            simp
          · intro b hb
            have hba : b ≠ a := by
              intro h
              exact hb (by simp [h])
            rw [hget' b (fun h => hb (by simp [h])), hs2get_ne b hba]
          · refine hs2keys_perm.trans ?_
            have h2 : (a :: keys s2.heap).Perm (a :: (stg' ++ keys s'.heap)) :=
              hperm'.cons a
            exact h2
          · rw [hdc']
            simp [hs2]
            omega

/-! ## Range push -/

theorem count_flatMap_destroy (l : List Nat) (a : Nat) :
    ((l.flatMap (fun b => [Ev.destroyE b, Ev.deallocE b])).count (Ev.destroyE a))
      = l.count a := by
  induction l with
  | nil => rfl
  | cons x t ih => simp [List.count_cons, ih]

theorem count_flatMap_dealloc (l : List Nat) (a : Nat) :
    ((l.flatMap (fun b => [Ev.destroyE b, Ev.deallocE b])).count (Ev.deallocE a))
      = l.count a := by
  induction l with
  | nil => rfl
  | cons x t ih => simp [List.count_cons, ih]

theorem flatMap_dd_no_shared (l : List Nat) :
    ∀ e ∈ l.flatMap (fun b => [Ev.destroyE b, Ev.deallocE b]),
      isStoreBHEv e = false ∧ isStoreTailNextEv e = false := by
  intro e he
  simp only [List.mem_flatMap, List.mem_cons] at he
  obtain ⟨b, _, h⟩ := he
  rcases h with h | h | h
  · simp [h, isStoreBHEv, isStoreTailNextEv]
  · simp [h, isStoreBHEv, isStoreTailNextEv]
  · simp at h

/-- An empty range push is a no-op. -/
theorem pushRange_nil (s : QState α) : pushRange s [] = (s, [], true) := rfl

/-- A successful range push: the batch is staged privately (no consumer
visible change), then published by one release store into `tail_->next`. -/
theorem pushRange_ok {s : QState α} {pre live : List Nat} (w : α) (vals : List α)
    (CA : ChainAux s pre live []) :
    ∃ s4 tr0 ih0 sMid trS it stgNew pre',
      make_node s (some w) = (s4, tr0, some ih0) ∧
      stageLoop s4 ih0 (vals.map some) = (sMid, trS, some it) ∧
      pushRange s (some w :: vals.map some) =
        ({ setNext sMid sMid.tail (some ih0) with tail := it },
          tr0 ++ trS ++ [Ev.storeTailNext ih0], true) ∧
      ChainAux ({ setNext sMid sMid.tail (some ih0) with tail := it }) pre'
        (live ++ ih0 :: stgNew) [] ∧
      (ih0 :: stgNew).length = vals.length + 1 ∧
      liveAddrs sMid = liveAddrs s ∧ headAddr sMid = headAddr s ∧
      sMid.before_head = s.before_head ∧ sMid.tail = s.tail ∧
      liveAddrs ({ setNext sMid sMid.tail (some ih0) with tail := it }) =
        liveAddrs s ++ ih0 :: stgNew ∧
      (∀ e ∈ tr0 ++ trS, isStoreBHEv e = false ∧ isStoreTailNextEv e = false) := by
  obtain ⟨s4, tr0, ih0, pre2, hmk, CA4, hdx, hnx, hdne, hnne, hbh4, htl4, hdc4,
    htr0, _⟩ := @make_node_some _ _ _ _ _ w CA
  obtain ⟨sMid, trS, stgNew, it, pre', hloop, CAM, hsegM, hlastM, hlenM, hdataM,
    hbhM, htlM, hdcM, hliveM, htrS⟩ :=
    stageLoop_ok vals s4 pre2 live [ih0] ih0 CA4 ⟨hnx, trivial⟩ rfl
      (by intro a ha; simp at ha; subst ha; rw [hdx]; rfl)
  have hpush : pushRange s (some w :: vals.map some) =
      ({ setNext sMid sMid.tail (some ih0) with tail := it },
        tr0 ++ trS ++ [Ev.storeTailNext ih0], true) := by
    simp only [pushRange, hmk, hloop]
  have hCA' : ChainAux ({ setNext sMid sMid.tail (some ih0) with tail := it })
      pre' (live ++ ih0 :: stgNew) [] := by
    have := publish_chain CAM hsegM (by simp) hlastM hdataM
      ({ setNext sMid sMid.tail (some ih0) with tail := it })
      rfl (by simp) (by simp) (by simp) rfl (by simp) (by simp) (by simp)
    simpa using this
  refine ⟨s4, tr0, ih0, sMid, trS, it, stgNew, pre', hmk, hloop, hpush, hCA',
    by simpa using hlenM, ?_, ?_, ?_, ?_, ?_, ?_⟩
  · rw [CAM.liveAddrs_eq, CA.liveAddrs_eq]
  · rw [CAM.headAddr_eq, CA.headAddr_eq]
  · rw [hbhM, hbh4]
  · rw [htlM, htl4]
  · rw [hCA'.liveAddrs_eq, CA.liveAddrs_eq]
  · intro e he
    rcases List.mem_append.mp he with h | h
    · exact ⟨(htr0 e h).1, (htr0 e h).2.1⟩
    · exact ⟨(htrS e h).1, (htrS e h).2.1⟩

/-- A failing range push: the staged nodes are destroyed and returned to
the allocator exactly once each, the exception propagates and the queue's
observable contents are unchanged. -/
theorem pushRange_fail {s : QState α} {pre live : List Nat} (good : List α)
    (rest : List (Option α)) (CA : ChainAux s pre live []) :
    ∃ (s' : QState α) (tr : List Ev) (stgNew pre' : List Nat),
      pushRange s (good.map some ++ none :: rest) = (s', tr, false) ∧
      ChainAux s' pre' live [] ∧
      stgNew.length = good.length ∧
      s'.before_head = s.before_head ∧ s'.tail = s.tail ∧
      (∀ a ∈ live, dataAt s'.heap a = dataAt s.heap a) ∧
      (∀ e ∈ tr, isStoreBHEv e = false ∧ isStoreTailNextEv e = false) ∧
      (∀ a ∈ stgNew, tr.count (Ev.destroyE a) = 1 ∧
        tr.count (Ev.deallocE a) = 1 ∧ a ∉ keys s'.heap) := by
  cases good with
  | nil =>
      obtain ⟨s1, tr, hmk, hCA, hheap, hbh, htl, _, htr, _, _⟩ :=
        make_node_fail CA
      refine ⟨s1, tr, [], pre, ?_, hCA, rfl, hbh, htl, ?_, ?_, ?_⟩
      · show pushRange s (none :: rest) = (s1, tr, false)
        simp only [pushRange, hmk]
      · intro a _
        rw [hheap]
      · intro e he
        exact ⟨(htr e he).1, (htr e he).2⟩
      · intro a ha
        simp at ha
  | cons g good' =>
      obtain ⟨s4, tr0, ih0, pre2, hmk, CA4, hdx, hnx, hdne, hnne, hbh4, htl4,
        hdc4, htr0, _⟩ := @make_node_some _ _ _ _ _ g CA
      obtain ⟨sF, trS, stgNew', preF, hloop, CAF, hsegF, hlenF, hbhF, htlF,
        hliveF, htrS, hdeaS⟩ :=
        stageLoop_fail good' rest s4 pre2 live [ih0] ih0 CA4 ⟨hnx, trivial⟩ rfl
          (by intro a ha; simp at ha; subst ha; rw [hdx]; rfl)
      set staged : List Nat := ih0 :: stgNew' with hstaged
      have hstagedF : ([ih0] ++ stgNew') = staged := by simp [hstaged]
      rw [hstagedF] at CAF hsegF
      -- the staged chain is disjoint from and outside the queue chain
      have hstg_nodup : staged.Nodup := by
        have hnd := CAF.nd
        have h2 : ((preF ++ sF.before_head :: live) ++ staged).Nodup := by
          simpa [List.append_assoc] using hnd
        exact h2.of_append_right
      have hstg_sub : ∀ a ∈ staged, a ∈ keys sF.heap := by
        intro a ha
        exact CAF.mem_keys (by simp [ha])
      have hchain_nodup : (preF ++ sF.before_head :: live).Nodup := by
        have hnd := CAF.nd
        have h2 : ((preF ++ sF.before_head :: live) ++ staged).Nodup := by
          simpa [List.append_assoc] using hnd
        exact h2.of_append_left
      have hdisj : ∀ a ∈ preF ++ sF.before_head :: live, a ∉ staged := by
        intro a ha
        have hnd := CAF.nd
        have h2 : ((preF ++ sF.before_head :: live) ++ staged).Nodup := by
          simpa [List.append_assoc] using hnd
        exact List.disjoint_of_nodup_append h2 ha
      have hfuel : staged.length ≤ sF.heap.length + 1 := by
        have := CAF.heap_length
        simp only [List.length_append, List.length_cons] at this
        omega
      obtain ⟨s', hrun, hget', hperm', hknd', hdc', hac', hfr', htl', hbh',
        hct', hch'⟩ := cleanupLoop_spec staged sF (sF.heap.length + 1) hsegF
          hstg_nodup hstg_sub CAF.keys_nodup hfuel
      have hrun' : cleanupLoop sF (some ih0) (sF.heap.length + 1) =
          (s', staged.flatMap (fun a => [Ev.destroyE a, Ev.deallocE a])) := by
        have : headO staged none = some ih0 := rfl
        rw [← this]
        exact hrun
      have hpush : pushRange s (some g :: (good'.map some ++ none :: rest)) =
          (s', tr0 ++ trS ++
            staged.flatMap (fun a => [Ev.destroyE a, Ev.deallocE a]), false) := by
        simp only [pushRange, hmk, hloop, hrun']
      -- data and next outside the staged set are untouched by the cleanup
      have hdata' : ∀ b, b ∉ staged → dataAt s'.heap b = dataAt sF.heap b := by
        intro b hb
        unfold dataAt
        rw [hget' b hb]
      have hnext' : ∀ b, b ∉ staged → nextAt s'.heap b = nextAt sF.heap b := by
        intro b hb
        unfold nextAt
        rw [hget' b hb]
      -- the staged nodes are gone from the heap
      have hstg_gone : ∀ a ∈ staged, a ∉ keys s'.heap := by
        intro a ha hmem
        have hnd2 : (staged ++ keys s'.heap).Nodup :=
          hperm'.nodup_iff.mp CAF.keys_nodup
        exact List.disjoint_of_nodup_append hnd2 ha hmem
      have hkeys' : (keys s'.heap).Perm (preF ++ sF.before_head :: live) := by
        have h1 : (staged ++ keys s'.heap).Perm
            (staged ++ (preF ++ sF.before_head :: live)) := by
          have hb : (keys sF.heap).Perm
              ((preF ++ sF.before_head :: live) ++ staged) := by
            have := CAF.perm
            simp only [List.append_assoc, List.append_nil,
              List.cons_append] at this ⊢
            exact this
          have hc : ((preF ++ sF.before_head :: live) ++ staged).Perm
              (staged ++ (preF ++ sF.before_head :: live)) :=
            List.perm_append_comm
          exact hperm'.symm.trans (hb.trans hc)
        exact (List.perm_append_left_iff staged).mp h1
      have hCA' : ChainAux s' preF live [] := by
        constructor
        case seg =>
            rw [hbh']
            apply chseg_congr (h := sF.heap) ?_ CAF.seg
            intro a ha
            exact hnext' a (hdisj a ha)
        case hd =>
            rw [hbh', hch']
            exact CAF.hd
        case lst =>
            rw [hbh', htl']
            exact CAF.lst
        case ctm =>
            rw [hct', hbh']
            exact CAF.ctm
        case nd =>
            rw [hbh']
            simpa using hchain_nodup
        case perm =>
            rw [hbh']
            simpa using hkeys'
        case dead =>
            intro a ha
            rw [hbh'] at ha
            rw [hdata' a (hdisj a (by
              simp only [List.mem_append, List.mem_cons] at ha ⊢
              tauto))]
            exact CAF.dead a ha
        case livedata =>
            intro a ha
            rw [hdata' a (hdisj a (by
              simp only [List.mem_append, List.mem_cons]
              exact Or.inr (Or.inr ha)))]
            exact CAF.livedata a (by simp [ha])
        case cnt =>
            rw [hac', hdc', CAF.cnt]
            simp only [List.append_nil, List.length_append, List.length_cons]
            omega
        case fb =>
            intro a ha
            rw [hfr']
            apply CAF.fb
            exact (hperm'.mem_iff).mpr (by simp [ha])
      refine ⟨s', _, staged, preF, hpush, hCA', by simp [hstaged, hlenF], ?_,
        ?_, ?_, ?_, ?_⟩
      · rw [hbh', hbhF, hbh4]
      · rw [htl', htlF, htl4]
      · intro a ha
        have hastg : a ∉ staged := hdisj a (by
          simp only [List.mem_append, List.mem_cons]
          exact Or.inr (Or.inr ha))
        rw [hdata' a hastg, hliveF a ha]
        refine hdne a ?_
        intro h
        subst h
        have h2 : ((pre2 ++ s4.before_head :: live) ++ a :: [] ).Nodup := by
          have := CA4.nd
          simpa [List.append_assoc] using this
        exact List.disjoint_of_nodup_append h2
          (by simp only [List.mem_append, List.mem_cons]
              exact Or.inr (Or.inr ha)) (by simp)
      · intro e he
        simp only [List.mem_append] at he
        rcases he with (h | h) | h
        · exact ⟨(htr0 e h).1, (htr0 e h).2.1⟩
        · exact ⟨(htrS e h).1, (htrS e h).2.1⟩
        · exact flatMap_dd_no_shared staged e h
      · intro a ha
        have hcnt1 : staged.count a = 1 := by
          rw [List.count_eq_one_of_mem hstg_nodup ha]
        refine ⟨?_, ?_, hstg_gone a ha⟩
        · rw [List.count_append, List.count_append]
          rw [count_flatMap_destroy, hcnt1]
          have h0 : tr0.count (Ev.destroyE a) = 0 := by
            rw [List.count_eq_zero]
            intro hmem
            exact ((htr0 _ hmem).2.2.1 a) rfl
          have h1 : trS.count (Ev.destroyE a) = 0 := by
            rw [List.count_eq_zero]
            intro hmem
            exact ((htrS _ hmem).2.2 a) rfl
          omega
        · rw [List.count_append, List.count_append]
          rw [count_flatMap_dealloc, hcnt1]
          have h0 : tr0.count (Ev.deallocE a) = 0 := by
            rw [List.count_eq_zero]
            intro hmem
            exact ((htr0 _ hmem).2.2.2 a) rfl
          have h1 : trS.count (Ev.deallocE a) = 0 := by
            rw [List.count_eq_zero]
            intro hmem
            exact hdeaS a (hstg_sub a ha) hmem
          omega

/-! ## `clear` and `consume_all` -/

theorem dataAt_setData_none_self (s : QState α) (a : Nat) :
    dataAt (setData s a none).heap a = none := by
  unfold setData
  cases hg : hget s.heap a with
  | none => simp [dataAt, hg]
  | some n =>
      have hmem : a ∈ keys s.heap := by
        rw [← hget_isSome_iff_mem_keys, hg]
        rfl
      simp [dataAt, hget_hset_self _ hmem]

/-- The walk of `clear()`: destroy each live `data` in chain order,
without storing to `before_head` and without touching the heap structure. -/
theorem clearLoop_spec (rest : List Nat) :
    ∀ (s : QState α) (last : Nat) (fuel : Nat),
    chseg s.heap (last :: rest) none → (last :: rest).Nodup →
    rest.length ≤ fuel →
    ∃ s' l, clearLoop s last fuel = (s', rest.map Ev.destroyE, l) ∧
      (last :: rest).getLast? = some l ∧
      (∀ b, b ∉ rest → hget s'.heap b = hget s.heap b) ∧
      (∀ b ∈ rest, dataAt s'.heap b = none) ∧
      (∀ b, nextAt s'.heap b = nextAt s.heap b) ∧
      keys s'.heap = keys s.heap ∧
      s'.fresh = s.fresh ∧ s'.allocCount = s.allocCount ∧
      s'.deallocCount = s.deallocCount ∧ s'.tail = s.tail ∧
      s'.before_head = s.before_head ∧ s'.cache_tail = s.cache_tail ∧
      s'.cache_head = s.cache_head := by
  induction rest with
  | nil =>
      intro s last fuel hseg _ _
      have hnx : nextAt s.heap last = none := hseg.1
      refine ⟨s, last, ?_, rfl, fun b _ => rfl, by simp, fun b => rfl, rfl,
        rfl, rfl, rfl, rfl, rfl, rfl, rfl⟩
      cases fuel with
      | zero => rfl
      | succ fuel => simp [clearLoop, hnx]
  | cons x rest' ih =>
      intro s last fuel hseg hnd hfuel
      cases fuel with
      | zero => simp at hfuel
      | succ fuel =>
          have hnx : nextAt s.heap last = some x := hseg.1
          have hxr : x ∉ rest' := (List.nodup_cons.mp (List.nodup_cons.mp hnd).2).1
          set s1 : QState α := setData s x none with hs1
          have hs1get_ne : ∀ b, b ≠ x → hget s1.heap b = hget s.heap b := by
            intro b hb
            rw [hs1]
            unfold setData
            cases hg : hget s.heap x with
            | none => rfl
            | some n => exact hget_hset_ne _ hb
          have hs1next : ∀ b, nextAt s1.heap b = nextAt s.heap b :=
            fun b => nextAt_setData _ _ _ b
          have hseg1 : chseg s1.heap (x :: rest') none := by
            apply chseg_congr (h := s.heap) ?_ hseg.2
            intro b _
            exact hs1next b
          obtain ⟨s', l, hrun, hlast, hget', hdata', hnext', hkeys', hfr', ha',
            hd', htl', hbh', hct', hch'⟩ :=
            ih s1 x fuel hseg1 (List.nodup_cons.mp hnd).2 (by simpa using hfuel)
          refine ⟨s', l, ?_, by simpa [List.getLast?_cons_cons] using hlast,
            ?_, ?_, ?_, ?_, ?_, ?_, ?_, ?_, ?_, ?_, ?_⟩
          · show clearLoop s last (fuel + 1) = _
            simp only [clearLoop, hnx, hs1, hrun]
            rfl
          · intro b hb
            have hbx : b ≠ x := by
              intro h
              exact hb (by simp [h])
            rw [hget' b (fun h => hb (by simp [h])), hs1get_ne b hbx]
          · intro b hb
            rcases List.mem_cons.mp hb with h | h
            · subst h
              rw [show dataAt s'.heap b = dataAt s1.heap b by
                unfold dataAt; rw [hget' b hxr], hs1]
              exact dataAt_setData_none_self s b
            · exact hdata' b h
          · intro b
            rw [hnext' b, hs1next b]
          · rw [hkeys', hs1, keys_setData]
          · rw [hfr', hs1, setData_fresh]
          · rw [ha', hs1, setData_allocCount]
          · rw [hd', hs1, setData_deallocCount]
          · rw [htl', hs1, setData_tail]
          · rw [hbh', hs1, setData_before_head]
          · rw [hct', hs1, setData_cache_tail]
          · rw [hch', hs1, setData_cache_head]

/-- The walk of `consume_all(f)`: invoke `f`, destroy, and store
`before_head`, once per element in chain order. -/
theorem consumeLoop_spec (rest : List Nat) :
    ∀ (s : QState α) (fuel : Nat),
    chseg s.heap rest none → rest.Nodup → rest.length ≤ fuel →
    ∃ s', consumeLoop s (headO rest none) fuel =
        (s', rest.flatMap (fun a => [Ev.invokeE a, Ev.destroyE a, Ev.storeBH a])) ∧
      (∀ b, b ∉ rest → hget s'.heap b = hget s.heap b) ∧
      (∀ b ∈ rest, dataAt s'.heap b = none) ∧
      (∀ b, nextAt s'.heap b = nextAt s.heap b) ∧
      keys s'.heap = keys s.heap ∧
      (rest = [] → s'.before_head = s.before_head) ∧
      (∀ l, rest.getLast? = some l → s'.before_head = l) ∧
      s'.fresh = s.fresh ∧ s'.allocCount = s.allocCount ∧
      s'.deallocCount = s.deallocCount ∧ s'.tail = s.tail ∧
      s'.cache_tail = s.cache_tail ∧ s'.cache_head = s.cache_head := by
  induction rest with
  | nil =>
      intro s fuel _ _ _
      refine ⟨s, ?_, fun b _ => rfl, by simp, fun b => rfl, rfl,
        fun _ => rfl, ?_, rfl, rfl, rfl, rfl, rfl, rfl⟩
      · cases fuel <;> rfl
      · intro l hl
        simp at hl
  | cons a rest' ih =>
      intro s fuel hseg hnd hfuel
      cases fuel with
      | zero => simp at hfuel
      | succ fuel =>
          have har : a ∉ rest' := (List.nodup_cons.mp hnd).1
          set s2 : QState α := { setData s a none with before_head := a } with hs2
          have hs2get_ne : ∀ b, b ≠ a → hget s2.heap b = hget s.heap b := by
            intro b hb
            rw [hs2]
            show hget (setData s a none).heap b = hget s.heap b
            unfold setData
            cases hg : hget s.heap a with
            | none => rfl
            | some n => exact hget_hset_ne _ hb
          have hs2next : ∀ b, nextAt s2.heap b = nextAt s.heap b := by
            intro b
            rw [hs2]
            show nextAt (setData s a none).heap b = nextAt s.heap b
            exact nextAt_setData _ _ _ b
          have hs2nx : nextAt s2.heap a = headO rest' none := by
            rw [hs2next a]
            exact hseg.1
          have hseg2 : chseg s2.heap rest' none := by
            apply chseg_congr (h := s.heap) ?_ hseg.2
            intro b _
            exact hs2next b
          obtain ⟨s', hrun, hget', hdata', hnext', hkeys', hbhnil, hbhlast,
            hfr', ha', hd', htl', hct', hch'⟩ :=
            ih s2 fuel hseg2 (List.nodup_cons.mp hnd).2 (by simpa using hfuel)
          refine ⟨s', ?_, ?_, ?_, ?_, ?_, ?_, ?_, ?_, ?_, ?_, ?_, ?_, ?_⟩
          · show consumeLoop s (some a) (fuel + 1) = _
            simp only [consumeLoop, ← hs2]
            rw [hs2nx, hrun]
            rfl
          · intro b hb
            have hba : b ≠ a := by
              intro h
              exact hb (by simp [h])
            rw [hget' b (fun h => hb (by simp [h])), hs2get_ne b hba]
          · intro b hb
            rcases List.mem_cons.mp hb with h | h
            · subst h
              rw [show dataAt s'.heap b = dataAt s2.heap b by
                unfold dataAt; rw [hget' b har]]
              rw [hs2]
              show dataAt (setData s b none).heap b = none
              exact dataAt_setData_none_self s b
            · exact hdata' b h
          · intro b
            rw [hnext' b, hs2next b]
          · rw [hkeys', hs2]
            show keys (setData s a none).heap = keys s.heap
            exact keys_setData _ _ _
          · intro h
            simp at h
          · intro l hl
            rcases rest' with _ | ⟨y, t⟩
            · have hla : l = a := by simpa using hl.symm
              subst hla
              rw [hbhnil rfl, hs2]
            · exact hbhlast l (by simpa [List.getLast?_cons_cons] using hl)

          · rw [hfr', hs2]
            show (setData s a none).fresh = s.fresh
            exact setData_fresh _ _ _
          · rw [ha', hs2]
            show (setData s a none).allocCount = s.allocCount
            exact setData_allocCount _ _ _
          · rw [hd', hs2]
            show (setData s a none).deallocCount = s.deallocCount
            exact setData_deallocCount _ _ _
          · rw [htl', hs2]
            show (setData s a none).tail = s.tail
            exact setData_tail _ _ _
          · rw [hct', hs2]
            show (setData s a none).cache_tail = s.cache_tail
            exact setData_cache_tail _ _ _
          · rw [hch', hs2]
            show (setData s a none).cache_head = s.cache_head
            exact setData_cache_head _ _ _

/-- Rebuilding the chain invariant after a full drain (`clear` or
`consume_all`): all previously live data destroyed, `before_head` moved to
the old `tail`, heap structure untouched. -/
theorem drained_chainaux {s s2 : QState α} {pre live : List Nat} {l : Nat}
    (CA : ChainAux s pre live [])
    (hl : (s.before_head :: live).getLast? = some l)
    (hget2 : ∀ b, b ∉ live → hget s2.heap b = hget s.heap b)
    (hdata2 : ∀ b ∈ live, dataAt s2.heap b = none)
    (hnext2 : ∀ b, nextAt s2.heap b = nextAt s.heap b)
    (hkeys2 : keys s2.heap = keys s.heap)
    (hbh2 : s2.before_head = l) (htl2 : s2.tail = s.tail)
    (hfr2 : s2.fresh = s.fresh) (ha2 : s2.allocCount = s.allocCount)
    (hd2 : s2.deallocCount = s.deallocCount)
    (hct2 : s2.cache_tail = s.cache_tail) (hch2 : s2.cache_head = s.cache_head) :
    ChainAux s2 (pre ++ (s.before_head :: live).dropLast) [] [] := by
  have hne : (s.before_head :: live) ≠ [] := by simp
  have hgl : (s.before_head :: live).getLast hne = l := by
    have := List.getLast?_eq_getLast_of_ne_nil hne
    rw [hl] at this
    exact (Option.some_inj.mp this).symm
  have hchain1 : (s.before_head :: live).dropLast ++ [l] = s.before_head :: live := by
    rw [← hgl]
    exact List.dropLast_concat_getLast hne
  have heqchain : (pre ++ (s.before_head :: live).dropLast) ++ [l] =
      pre ++ s.before_head :: live := by
    rw [List.append_assoc, hchain1]
  have hltail : l = s.tail := by
    have := CA.lst
    rw [hl] at this
    exact Option.some_inj.mp this
  have hdall : ∀ a ∈ pre ++ s.before_head :: live, dataAt s2.heap a = none := by
    intro a ha
    by_cases halive : a ∈ live
    · exact hdata2 a halive
    · have ha2mem : a ∈ pre ++ [s.before_head] := by
        simp only [List.mem_append, List.mem_cons] at ha ⊢
        rcases ha with h | h | h
        · tauto
        · tauto
        · exact absurd h halive
      rw [show dataAt s2.heap a = dataAt s.heap a by
        unfold dataAt; rw [hget2 a halive]]
      exact CA.dead a ha2mem
  constructor
  case seg =>
      rw [hbh2]
      have heq2 : (pre ++ (s.before_head :: live).dropLast) ++ l :: ([] : List Nat)
          = pre ++ s.before_head :: live := heqchain
      show chseg s2.heap ((pre ++ (s.before_head :: live).dropLast) ++ [l]) none
      rw [heqchain]
      exact chseg_congr (fun a _ => hnext2 a) CA.seg
  case hd =>
      rw [hbh2, hch2]
      show ((pre ++ (s.before_head :: live).dropLast) ++ [l]).head? =
        some s.cache_head
      rw [heqchain]
      exact CA.hd
  case lst =>
      rw [hbh2, htl2]
      simp [hltail]
  case ctm =>
      rw [hct2, hbh2]
      have h1 := CA.ctm
      have h2 : s.cache_tail ∈ pre ++ s.before_head :: live := by
        simp only [List.mem_append, List.mem_cons] at h1 ⊢
        tauto
      rw [← heqchain] at h2
      simpa using h2
  case nd =>
      rw [hbh2]
      have h1 := CA.nd
      have h2 : (pre ++ s.before_head :: live).Nodup := by simpa using h1
      rw [← heqchain] at h2
      simpa using h2
  case perm =>
      rw [hkeys2, hbh2]
      have h1 := CA.perm
      have h2 : (keys s.heap).Perm (pre ++ s.before_head :: live) := by
        simpa using h1
      rw [← heqchain] at h2
      simpa using h2
  case dead =>
      intro a ha
      rw [hbh2] at ha
      apply hdall
      rw [← heqchain]
      simpa using ha
  case livedata =>
      intro a ha
      simp at ha
  case cnt =>
      rw [ha2, hd2, hbh2, CA.cnt]
      have hlen : ((pre ++ (s.before_head :: live).dropLast) ++ [l]).length =
          (pre ++ s.before_head :: live).length := by
        rw [heqchain]
      simp only [List.append_nil, List.length_append, List.length_cons,
        List.length_nil] at hlen ⊢
      omega
  case fb =>
      intro a ha
      rw [hkeys2] at ha
      rw [hfr2]
      exact CA.fb a ha

/-- The full `clear()` specification: every live `data` is destroyed in
chain order, then a single release store of the last node into
`before_head_` closes the operation. -/
theorem clear_spec {s : QState α} {pre live : List Nat}
    (CA : ChainAux s pre live []) :
    ∃ s2 l pre2,
      (s.before_head :: live).getLast? = some l ∧
      clear s = (s2, live.map Ev.destroyE ++ [Ev.storeBH l]) ∧
      ChainAux s2 pre2 [] [] ∧ s2.before_head = l ∧ s2.tail = s.tail ∧
      s2.allocCount = s.allocCount ∧ s2.deallocCount = s.deallocCount := by
  have hsegbl : chseg s.heap (s.before_head :: live) none :=
    @chseg_append_right _ _ pre _ _ CA.seg
  have hndbl : (s.before_head :: live).Nodup := by
    have h1 := CA.nd
    have h2 : (pre ++ s.before_head :: live).Nodup := by simpa using h1
    exact h2.of_append_right
  have hfuel : live.length ≤ s.heap.length + 1 := by
    have := CA.heap_length
    simp only [List.append_nil, List.length_append, List.length_cons] at this
    omega
  obtain ⟨s', l, hrun, hlast, hget', hdata', hnext', hkeys', hfr', ha', hd',
    htl', hbh', hct', hch'⟩ := clearLoop_spec live s s.before_head
      (s.heap.length + 1) hsegbl hndbl hfuel
  have hclear : clear s = ({ s' with before_head := l },
      live.map Ev.destroyE ++ [Ev.storeBH l]) := by
    simp only [clear, hrun]
  refine ⟨{ s' with before_head := l }, l,
    pre ++ (s.before_head :: live).dropLast, hlast, hclear, ?_, rfl, ?_, ?_, ?_⟩
  · refine drained_chainaux CA hlast ?_ ?_ ?_ ?_ rfl ?_ ?_ ?_ ?_ ?_ ?_
    · intro b hb
      exact hget' b hb
    · intro b hb
      exact hdata' b hb
    · intro b
      exact hnext' b
    · exact hkeys'
    · exact htl'
    · exact hfr'
    · exact ha'
    · exact hd'
    · exact hct'
    · exact hch'
  · exact htl'
  · exact ha'
  · exact hd'

/-- The full `consume_all(f)` specification: for each live node in chain
order, `f` is invoked on its value, the value is destroyed, and the node is
immediately release-stored into `before_head_` — one store per element, not
one store at the end. -/
theorem consume_all_spec {s : QState α} {pre live : List Nat}
    (CA : ChainAux s pre live []) :
    ∃ s2 l pre2,
      (s.before_head :: live).getLast? = some l ∧
      consume_all s =
        (s2, live.flatMap (fun a => [Ev.invokeE a, Ev.destroyE a, Ev.storeBH a])) ∧
      ChainAux s2 pre2 [] [] ∧ s2.before_head = l ∧ s2.tail = s.tail ∧
      s2.allocCount = s.allocCount ∧ s2.deallocCount = s.deallocCount := by
  have hsegl : chseg s.heap live none := CA.seg_live.2
  have hndl : live.Nodup := by
    have h1 := CA.nd
    have h2 : (pre ++ s.before_head :: live).Nodup := by simpa using h1
    exact (List.nodup_cons.mp h2.of_append_right).2
  have hfuel : live.length ≤ s.heap.length + 1 := by
    have := CA.heap_length
    simp only [List.append_nil, List.length_append, List.length_cons] at this
    omega
  obtain ⟨s', hrun, hget', hdata', hnext', hkeys', hbhnil, hbhlast, hfr', ha',
    hd', htl', hct', hch'⟩ := consumeLoop_spec live s (s.heap.length + 1)
      hsegl hndl hfuel
  have hcons : consume_all s =
      (s', live.flatMap (fun a => [Ev.invokeE a, Ev.destroyE a, Ev.storeBH a])) := by
    unfold consume_all
    rw [CA.headAddr_eq]
    exact hrun
  obtain ⟨l, hl⟩ : ∃ l, (s.before_head :: live).getLast? = some l := by
    have hne : (s.before_head :: live) ≠ [] := by simp
    exact ⟨_, List.getLast?_eq_getLast_of_ne_nil hne⟩
  have hbh2 : s'.before_head = l := by
    cases hlive : live with
    | nil =>
        subst hlive
        simp at hl
        rw [hbhnil rfl, hl]
    | cons y t =>
        subst hlive
        refine hbhlast l ?_
        rwa [List.getLast?_cons_cons] at hl
  refine ⟨s', l, pre ++ (s.before_head :: live).dropLast, hl, hcons, ?_,
    hbh2, htl', ha', hd'⟩
  refine drained_chainaux CA hl ?_ ?_ ?_ ?_ hbh2 ?_ ?_ ?_ ?_ ?_ ?_
  · intro b hb
    exact hget' b hb
  · intro b hb
    exact hdata' b hb
  · intro b
    exact hnext' b
  · exact hkeys'
  · exact htl'
  · exact hfr'
  · exact ha'
  · exact hd'
  · exact hct'
  · exact hch'

/-! ## Destruction -/

/-- The first destructor loop: deallocate (without destroying) each node of
a segment that stops strictly before `cache_end`. -/
theorem dtorCacheLoop_spec (cs : List Nat) :
    ∀ (s : QState α) (stop : Option Nat) (fuel : Nat),
    chseg s.heap cs stop → cs.Nodup →
    (∀ a ∈ cs, a ∈ keys s.heap) → (keys s.heap).Nodup →
    (∀ a ∈ cs, stop ≠ some a) → cs.length ≤ fuel →
    ∃ s', dtorCacheLoop s (headO cs stop) stop fuel = (s', cs.map Ev.deallocE, stop) ∧
      (∀ b, b ∉ cs → hget s'.heap b = hget s.heap b) ∧
      (keys s.heap).Perm (cs ++ keys s'.heap) ∧
      (keys s'.heap).Nodup ∧
      s'.deallocCount = s.deallocCount + cs.length ∧
      s'.allocCount = s.allocCount ∧ s'.fresh = s.fresh ∧ s'.tail = s.tail ∧
      s'.before_head = s.before_head ∧ s'.cache_tail = s.cache_tail ∧
      s'.cache_head = s.cache_head := by
  induction cs with
  | nil =>
      intro s stop fuel _ _ _ hknd _ _
      refine ⟨s, ?_, fun b _ => rfl, by simp, hknd, by simp, rfl, rfl, rfl,
        rfl, rfl, rfl⟩
      cases fuel with
      | zero => rfl
      | succ fuel => simp [dtorCacheLoop, headO]
  | cons a cs' ih =>
      intro s stop fuel hseg hnd hmem hknd hstop hfuel
      cases fuel with
      | zero => simp at hfuel
      | succ fuel =>
          have hanot : a ∉ cs' := (List.nodup_cons.mp hnd).1
          have hamem : a ∈ keys s.heap := hmem a (by simp)
          have hane : stop ≠ some a := hstop a (by simp)
          set s2 : QState α := deallocNode s a with hs2
          have hs2get_ne : ∀ b, b ≠ a → hget s2.heap b = hget s.heap b := by
            intro b hb
            rw [hs2]
            show hget (hdel s.heap a) b = hget s.heap b
            exact hget_hdel_ne hb
          have hs2keys_perm : (keys s.heap).Perm (a :: keys s2.heap) := by
            apply keys_hdel_perm hknd hamem
          have hs2knd : (keys s2.heap).Nodup := by
            have := hs2keys_perm.nodup_iff.mp hknd
            exact (List.nodup_cons.mp this).2
          have hseg2 : chseg s2.heap cs' stop := by
            apply chseg_congr (h := s.heap) ?_ hseg.2
            intro b hb
            have hba : b ≠ a := fun h => hanot (h ▸ hb)
            show nextAt s2.heap b = nextAt s.heap b
            unfold nextAt
            rw [hs2get_ne b hba]
          have hmem2 : ∀ b ∈ cs', b ∈ keys s2.heap := by
            intro b hb
            have hba : b ≠ a := fun h => hanot (h ▸ hb)
            rw [← hget_isSome_iff_mem_keys, hs2get_ne b hba,
              hget_isSome_iff_mem_keys]
            exact hmem b (by simp [hb])
          obtain ⟨s', hrun, hget', hperm', hknd', hdc', hac', hfr', htl', hbh',
            hct', hch'⟩ := ih s2 stop fuel hseg2 (List.nodup_cons.mp hnd).2
              hmem2 hs2knd (fun b hb => hstop b (by simp [hb]))
              (by simpa using hfuel)
          refine ⟨s', ?_, ?_, ?_, hknd', ?_, by simp [hac', hs2],
            by simp [hfr', hs2], by simp [htl', hs2], by simp [hbh', hs2],
            by simp [hct', hs2], by simp [hch', hs2]⟩
          · show dtorCacheLoop s (some a) stop (fuel + 1) = _
            simp only [dtorCacheLoop]
            rw [if_neg (by intro h; exact hane h.symm)]
            have hnx : nextAt s.heap a = headO cs' stop := hseg.1
            rw [show dtorCacheLoop (deallocNode s a) (nextAt s.heap a) stop fuel
              = dtorCacheLoop s2 (headO cs' stop) stop fuel by rw [hnx, hs2]]
            rw [hrun]
            rfl
          · intro b hb
            have hba : b ≠ a := by
              intro h
              exact hb (by simp [h])
            rw [hget' b (fun h => hb (by simp [h])), hs2get_ne b hba]
          · refine hs2keys_perm.trans ?_
            exact hperm'.cons a
          · rw [hdc']
            simp [hs2]
            omega

/-- The destructor's second loop coincides with the range-push cleanup
loop: both destroy the `data` and deallocate each node along `next`. -/
theorem dtorLiveLoop_eq_cleanup :
    ∀ (fuel : Nat) (s : QState α) (x : Option Nat),
    dtorLiveLoop s x fuel = cleanupLoop s x fuel := by
  intro fuel
  induction fuel with
  | zero => intro s x; rfl
  | succ n ih =>
      intro s x
      cases x with
      | none => rfl
      | some a => simp only [dtorLiveLoop, cleanupLoop, ih]

/-- The destructor specification: cache and sentinel nodes (`cache_head`
up to and including `before_head`) are deallocated without destruction,
live nodes are destroyed then deallocated, the heap ends empty and the
allocator balances. -/
theorem dtor_spec {s : QState α} {pre live : List Nat}
    (CA : ChainAux s pre live []) :
    ∃ s2, dtor s = (s2, (pre ++ [s.before_head]).map Ev.deallocE ++
        live.flatMap (fun a => [Ev.destroyE a, Ev.deallocE a])) ∧
      s2.heap = [] ∧ s2.allocCount = s2.deallocCount := by
  have hsplit : chseg s.heap ((pre ++ [s.before_head]) ++ live) none := by
    have := CA.seg
    simp only [List.append_assoc, List.cons_append, List.nil_append] at this ⊢
    exact this
  have hseg1 : chseg s.heap (pre ++ [s.before_head]) (headO live none) :=
    chseg_split hsplit
  have hseg2 : chseg s.heap live none := chseg_append_right hsplit
  have hchain_nd : ((pre ++ [s.before_head]) ++ live).Nodup := by
    have := CA.nd
    simp only [List.append_nil] at this
    simp only [List.append_assoc, List.cons_append, List.nil_append] at this ⊢
    exact this
  have hnd1 : (pre ++ [s.before_head]).Nodup := hchain_nd.of_append_left
  have hnd2 : live.Nodup := hchain_nd.of_append_right
  have hmem1 : ∀ a ∈ pre ++ [s.before_head], a ∈ keys s.heap := by
    intro a ha
    apply CA.mem_keys
    simp only [List.mem_append, List.mem_cons, List.mem_singleton] at ha ⊢
    tauto
  have hstopnot : ∀ a ∈ pre ++ [s.before_head], headO live none ≠ some a := by
    intro a ha
    cases hlive : live with
    | nil => simp [headO]
    | cons y t =>
        simp only [headO]
        intro h
        have hya : y = a := by simpa using h
        subst hya
        have hnotin : y ∉ live := List.disjoint_of_nodup_append hchain_nd ha
        rw [hlive] at hnotin
        exact hnotin (by simp)
  have hfuel1 : (pre ++ [s.before_head]).length ≤ s.heap.length + 1 := by
    have := CA.heap_length
    simp only [List.append_nil, List.length_append, List.length_cons,
      List.length_nil] at this ⊢
    omega
  obtain ⟨s1, hrun1, hget1, hperm1, hknd1, hdc1, hac1, hfr1, htl1, hbh1, hct1,
    hch1⟩ := dtorCacheLoop_spec (pre ++ [s.before_head]) s (headO live none)
      (s.heap.length + 1) hseg1 hnd1 hmem1 CA.keys_nodup hstopnot hfuel1
  have hheadO : headO (pre ++ [s.before_head]) (headO live none) =
      some s.cache_head := by
    rw [headO_eq_head? (by simp) _]
    have := CA.hd
    cases pre <;> simpa using this
  have hcacheEnd : headAddr s = headO live none := CA.headAddr_eq
  -- second loop over the live nodes
  have hseg2' : chseg s1.heap live none := by
    apply chseg_congr (h := s.heap) ?_ hseg2
    intro b hb
    have hbnot : b ∉ pre ++ [s.before_head] := fun h =>
      List.disjoint_of_nodup_append hchain_nd h hb
    unfold nextAt
    rw [hget1 b hbnot]
  have hmem2 : ∀ b ∈ live, b ∈ keys s1.heap := by
    intro b hb
    have hbnot : b ∉ pre ++ [s.before_head] := fun h =>
      List.disjoint_of_nodup_append hchain_nd h hb
    rw [← hget_isSome_iff_mem_keys, hget1 b hbnot, hget_isSome_iff_mem_keys]
    apply CA.mem_keys
    simp only [List.mem_append, List.mem_cons]
    tauto
  have hlen1 : (keys s1.heap).length = live.length := by
    have h1 := hperm1.length_eq
    have h2 := CA.heap_length
    simp only [List.append_nil, List.length_append, List.length_cons,
      List.length_nil] at h1 h2 ⊢
    have h3 : (keys s.heap).length = s.heap.length := by
      simp [keys]
    omega
  have hfuel2 : live.length ≤ s1.heap.length + 1 := by
    have : s1.heap.length = (keys s1.heap).length := by simp [keys]
    omega
  obtain ⟨s2, hrun2, hget2, hperm2, hknd2, hdc2, hac2, _, _, _, _, _⟩ :=
    cleanupLoop_spec live s1 (s1.heap.length + 1) hseg2' hnd2 hmem2 hknd1 hfuel2
  rw [hheadO] at hrun1
  have hdtor : dtor s = (s2, (pre ++ [s.before_head]).map Ev.deallocE ++
      live.flatMap (fun a => [Ev.destroyE a, Ev.deallocE a])) := by
    simp only [dtor]
    rw [hcacheEnd, hrun1]
    simp only []
    rw [dtorLiveLoop_eq_cleanup, hrun2]
  -- the heap is empty at the end
  have hkeys2len : (keys s2.heap).length = 0 := by
    have h1 := hperm2.length_eq
    simp only [List.length_append] at h1
    omega
  have hheap2 : s2.heap = [] := by
    have : s2.heap.length = 0 := by
      have : (keys s2.heap).length = s2.heap.length := by simp [keys]
      omega
    exact List.length_eq_zero.mp this
  refine ⟨s2, hdtor, hheap2, ?_⟩
  have hcnt := CA.cnt
  simp only [List.append_nil, List.length_append, List.length_cons,
    List.length_nil] at hcnt hdc1 hdc2
  omega

/-! ## Reachability and the invariant -/

theorem refillCT_eq_of_nil {s : QState α} {live others : List Nat}
    (CA : ChainAux s [] live others) : refillCT s = s.cache_head := by
  have hch : s.cache_head = s.before_head := by
    have := CA.hd
    simp at this
    exact this.symm
  have hctl : s.cache_tail = s.before_head := by
    have := CA.ctm
    simpa using this
  unfold refillCT
  rw [if_pos (hctl.trans hch.symm)]
  exact hch.symm

theorem refillCT_ne_of_cons {s : QState α} {q : Nat} {pre' live others : List Nat}
    (CA : ChainAux s (q :: pre') live others) : refillCT s ≠ s.cache_head := by
  have hq : q = s.cache_head := by
    have := CA.hd
    simp at this
    exact this
  have hnotin : q ∉ pre' ++ s.before_head :: live ++ others := by
    have := CA.nd
    simp only [List.cons_append] at this
    exact (List.nodup_cons.mp this).1
  have hbhq : s.before_head ≠ q := by
    intro h
    exact hnotin (by simp [← h])
  rw [← hq]
  unfold refillCT
  by_cases hc : s.cache_tail = s.cache_head
  · rw [if_pos hc]
    exact hbhq
  · rw [if_neg hc]
    intro h
    exact hc (h.trans hq)

/-- Every list of optionals is either all-`some` or has a first `none`. -/
theorem opt_list_cases (vs : List (Option α)) :
    (∃ l : List α, vs = l.map some) ∨
    (∃ (good : List α) (rest : List (Option α)),
      vs = good.map some ++ none :: rest) := by
  induction vs with
  | nil => exact Or.inl ⟨[], rfl⟩
  | cons v t ih =>
      cases v with
      | none => exact Or.inr ⟨[], t, rfl⟩
      | some a =>
          rcases ih with ⟨l, rfl⟩ | ⟨good, rest, rfl⟩
          · exact Or.inl ⟨a :: l, rfl⟩
          · exact Or.inr ⟨a :: good, rest, rfl⟩

/-- Every reachable queue state satisfies the chain invariant. -/
theorem reachable_inv {s : QState α} (h : Reachable s) : Inv s := by
  induction h with
  | init => exact ⟨[], [], initState_inv⟩
  | emp v hr ih =>
      obtain ⟨pre, live, CA⟩ := ih
      cases v with
      | none =>
          obtain ⟨s', tr, hemp, hCA, _⟩ := emplace_fail CA
          rw [hemp]
          exact ⟨pre, live, hCA⟩
      | some val =>
          obtain ⟨s', tr, x, pre', hemp, hCA, _⟩ := @emplace_some _ _ _ _ val CA
          rw [hemp]
          exact ⟨pre', live ++ [x], hCA⟩
  | pope out hr ih =>
      obtain ⟨pre, live, CA⟩ := ih
      cases live with
      | nil =>
          rw [pop_spec_nil out CA]
          exact ⟨pre, [], CA⟩
      | cons x live' =>
          obtain ⟨v, _, _, hCA, _⟩ := pop_spec_cons out CA
          exact ⟨_, live', hCA⟩
  | clr hr ih =>
      obtain ⟨pre, live, CA⟩ := ih
      obtain ⟨s2, l, pre2, _, hclear, hCA, _⟩ := clear_spec CA
      rw [hclear]
      exact ⟨pre2, [], hCA⟩
  | cons hr ih =>
      obtain ⟨pre, live, CA⟩ := ih
      obtain ⟨s2, l, pre2, _, hcons, hCA, _⟩ := consume_all_spec CA
      rw [hcons]
      exact ⟨pre2, [], hCA⟩
  | rng vs hr ih =>
      obtain ⟨pre, live, CA⟩ := ih
      rcases opt_list_cases vs with ⟨l, rfl⟩ | ⟨good, rest, rfl⟩
      · cases l with
        | nil => exact ⟨pre, live, CA⟩
        | cons w vals =>
            obtain ⟨s4, tr0, ih0, sMid, trS, it, stgNew, pre', _, _, hpush,
              hCA, _⟩ := pushRange_ok w vals CA
            rw [show (w :: vals).map some = some w :: vals.map some from rfl,
              hpush]
            exact ⟨pre', live ++ ih0 :: stgNew, hCA⟩
      · obtain ⟨s', tr, stgNew, pre', hpush, hCA, _⟩ :=
          pushRange_fail good rest CA
        rw [hpush]
        exact ⟨pre', live, hCA⟩

theorem reachable_pushSeqTr (vs : List α) :
    ∀ {s : QState α}, Reachable s → Reachable (pushSeqTr s vs).1 := by
  induction vs with
  | nil => intro s h; exact h
  | cons v t ih =>
      intro s h
      exact ih (Reachable.emp (some v) h)

theorem reachable_popAll (fuel : Nat) :
    ∀ (s : QState α) (out : α), Reachable s → Reachable (popAll s out fuel).1 := by
  induction fuel with
  | zero => intro s out h; exact h
  | succ f ih =>
      intro s out h
      have h1 : Reachable (pop s out).1 := Reachable.pope out h
      simp only [popAll]
      rcases hp : pop s out with ⟨s', tr, b, v⟩
      rw [hp] at h1
      cases b
      · exact h1
      · exact ih s' out h1

/-! ## Functional specification of push sequences and pop-all -/

theorem filterMap_all_some_length {β : Type u} (l : List Nat) (f : Nat → Option β)
    (h : ∀ a ∈ l, (f a).isSome = true) : (l.filterMap f).length = l.length := by
  induction l with
  | nil => rfl
  | cons a t ih =>
      obtain ⟨v, hv⟩ := Option.isSome_iff_exists.mp (h a (by simp))
      simp [List.filterMap_cons, hv, ih (fun b hb => h b (by simp [hb]))]

/-- Pushing a list of values appends them, in order, to the live values. -/
theorem pushSeqTr_spec (vs : List α) :
    ∀ (s : QState α) (pre live : List Nat), ChainAux s pre live [] →
    ∃ s' tr preN liveNew, pushSeqTr s vs = (s', tr) ∧
      ChainAux s' preN (live ++ liveNew) [] ∧
      (live ++ liveNew).filterMap (dataAt s'.heap) =
        live.filterMap (dataAt s.heap) ++ vs ∧
      (vs.length ≤ pre.length →
        tr.countP isAllocEv = 0 ∧ preN.length + vs.length = pre.length) := by
  induction vs with
  | nil =>
      intro s pre live CA
      exact ⟨s, [], pre, [], rfl, by simpa using CA, by simp, by
        intro _
        simp⟩
  | cons v rest ih =>
      intro s pre live CA
      obtain ⟨s1, tr1, x, pre1, hemp, hCA1, hdx, hdlive, _, _, hcase⟩ :=
        @emplace_some _ _ _ _ v CA
      obtain ⟨s', tr', preN, liveNew, hrun, hCA', hvals, hnoalloc⟩ :=
        ih s1 pre1 (live ++ [x]) hCA1
      have hstep : pushSeqTr s (v :: rest) = (s', (tr1 ++ [Ev.storeTailNext x]) ++ tr') := by
        simp only [pushSeqTr, hemp, hrun]
      refine ⟨s', _, preN, [x] ++ liveNew, hstep, by
        have := hCA'
        simpa [List.append_assoc] using this, ?_, ?_⟩
      · have h1 : ((live ++ [x]) ++ liveNew).filterMap (dataAt s'.heap) =
            (live ++ [x]).filterMap (dataAt s1.heap) ++ rest := hvals
        have h2 : (live ++ [x]).filterMap (dataAt s1.heap) =
            live.filterMap (dataAt s.heap) ++ [v] := by
          rw [List.filterMap_append]
          congr 1
          · exact List.filterMap_congr (fun a ha => hdlive a ha)
          · simp [List.filterMap_cons, hdx]
        rw [← List.append_assoc, h1, h2]
        simp
      · intro hlen
        rcases hcase with ⟨h1, h2, h3, h4, h5⟩ | ⟨h1, h2, h3, h4⟩
        · subst h2
          simp at hlen
        · have hlen1 : rest.length ≤ pre1.length := by
            rw [h1] at hlen
            simpa using hlen
          obtain ⟨hcnt, hplen⟩ := hnoalloc hlen1
          constructor
          · rw [List.countP_append, hcnt, h3]
            simp [isAllocEv]
          · rw [h1]
            simp only [List.length_cons]
            omega

/-- Popping until `pop` returns false returns exactly the live values in
order and leaves the queue drained. -/
theorem popAll_spec (live : List Nat) :
    ∀ (s : QState α) (pre : List Nat) (out : α) (fuel : Nat),
    ChainAux s pre live [] → live.length + 1 ≤ fuel →
    (popAll s out fuel).2 = live.filterMap (dataAt s.heap) ∧
    ∃ pre2, ChainAux (popAll s out fuel).1 pre2 [] [] := by
  induction live with
  | nil =>
      intro s pre out fuel CA hfuel
      cases fuel with
      | zero => simp at hfuel
      | succ f =>
          simp only [popAll, pop_spec_nil out CA]
          exact ⟨rfl, pre, CA⟩
  | cons x live' ih =>
      intro s pre out fuel CA hfuel
      cases fuel with
      | zero => simp at hfuel
      | succ f =>
          obtain ⟨v, hv, hpop, hCA2, hpres⟩ := pop_spec_cons out CA
          have hdata2 : live'.filterMap (dataAt (pop s out).1.heap) =
              live'.filterMap (dataAt s.heap) := by
            apply List.filterMap_congr
            intro a ha
            refine hpres a ?_
            intro hax
            subst hax
            have hnd := CA.nd
            have h2 : (pre ++ s.before_head :: a :: live').Nodup := by
              simpa using hnd
            have h3 := (h2.of_append_right)
            exact (List.nodup_cons.mp (List.nodup_cons.mp h3).2).1 ha
          obtain ⟨hvals, pre2, hCA'⟩ :=
            ih (pop s out).1 (pre ++ [s.before_head]) out f hCA2
              (by simpa using hfuel)
          constructor
          · simp only [popAll, hpop]
            rw [show (popAll ({ setData s x none with before_head := x }) out f)
              = popAll (pop s out).1 out f by rw [hpop]]
            rw [hvals, hdata2]
            simp [List.filterMap_cons, hv]
          · refine ⟨pre2, ?_⟩
            simp only [popAll, hpop]
            rw [show (popAll ({ setData s x none with before_head := x }) out f)
              = popAll (pop s out).1 out f by rw [hpop]]
            exact hCA'

/-! ## Derived observables -/

theorem takeWhile_ne_append (bh : Nat) (pre live' : List Nat) (h : bh ∉ pre) :
    ((pre ++ bh :: live').takeWhile (fun a => a != bh)) = pre := by
  induction pre with
  | nil => simp [List.takeWhile_cons]
  | cons q t ih =>
      have hq : q ≠ bh := by
        intro hh
        exact h (by simp [hh])
      have ht : bh ∉ t := by
        intro hh
        exact h (by simp [hh])
      simp only [List.cons_append, List.takeWhile_cons]
      rw [if_pos (by simpa using hq)]
      rw [ih ht]

/-- Under the invariant, the number of free nodes available to the
producer without allocating is the length of the region strictly before
`before_head`. -/
theorem cacheAvail_eq {s : QState α} {pre live : List Nat}
    (CA : ChainAux s pre live []) : cacheAvail s = pre.length := by
  have hchlen : s.heap.length = (pre ++ s.before_head :: live).length := by
    have := CA.heap_length
    simpa using this
  have hfollow : follow s.heap s.heap.length (some s.cache_head) =
      pre ++ s.before_head :: live := by
    have hhd : some s.cache_head = headO (pre ++ s.before_head :: live) none := by
      rw [headO_eq_head? (by simp) none]
      exact CA.hd.symm
    rw [hhd]
    exact follow_eq_of_chseg CA.seg _ (le_of_eq hchlen.symm)
  have hbhpre : s.before_head ∉ pre := by
    have hnd := CA.nd
    have h2 : (pre ++ s.before_head :: live).Nodup := by simpa using hnd
    intro hmem
    exact List.disjoint_of_nodup_append h2 hmem (by simp)
  unfold cacheAvail
  rw [hfollow, takeWhile_ne_append _ _ _ hbhpre]

theorem count_map_deallocE_deallocE (cs : List Nat) (a : Nat) :
    ((cs.map Ev.deallocE).count (Ev.deallocE a)) = cs.count a := by
  induction cs with
  | nil => rfl
  | cons x t ih => simp [List.count_cons, ih]

theorem count_map_deallocE_destroyE (cs : List Nat) (a : Nat) :
    ((cs.map Ev.deallocE).count (Ev.destroyE a)) = 0 := by
  induction cs with
  | nil => rfl
  | cons x t ih => simp [List.count_cons, ih]

/-- Under the invariant, a `data` slot is constructed exactly on the live
region. -/
theorem ChainAux.isSome_data_iff {s : QState α} {pre live : List Nat}
    (CA : ChainAux s pre live []) (a : Nat) :
    (dataAt s.heap a).isSome = true ↔ a ∈ live := by
  constructor
  · intro h
    have hmem : a ∈ keys s.heap := by
      rw [← hget_isSome_iff_mem_keys]
      unfold dataAt at h
      cases hg : hget s.heap a with
      | none => rw [hg] at h; simp at h
      | some n => simp
    have hchain : a ∈ pre ++ s.before_head :: live ++ [] :=
      CA.perm.mem_iff.mp hmem
    simp only [List.append_nil, List.mem_append, List.mem_cons] at hchain
    rcases hchain with h1 | h1 | h1
    · exact absurd (CA.dead a (by simp [h1]))
        (by intro hh; rw [hh] at h; simp at h)
    · exact absurd (CA.dead a (by simp [h1]))
        (by intro hh; rw [hh] at h; simp at h)
    · exact h1
  · exact CA.livedata a

theorem ChainAux.mem_keys_iff {s : QState α} {pre live : List Nat}
    (CA : ChainAux s pre live []) (a : Nat) :
    a ∈ keys s.heap ↔ a ∈ pre ++ s.before_head :: live := by
  rw [CA.perm.mem_iff]
  simp

theorem countP_heap_eq (h : Heap α) (hnd : (keys h).Nodup) :
    h.countP (fun p => p.2.data.isSome) =
      (keys h).countP (fun a => (dataAt h a).isSome) := by
  induction h with
  | nil => rfl
  | cons p t ih =>
      obtain ⟨a, n⟩ := p
      have hnotin : a ∉ keys t := by
        rw [keys_cons] at hnd
        exact (List.nodup_cons.mp hnd).1
      have hndt : (keys t).Nodup := by
        rw [keys_cons] at hnd
        exact (List.nodup_cons.mp hnd).2
      have hda : dataAt ((a, n) :: t) a = n.data := by
        simp [dataAt, hget]
      have hcongr : ∀ b ∈ keys t,
          ((dataAt t b).isSome = true ↔ (dataAt ((a, n) :: t) b).isSome = true) := by
        intro b hb
        have hba : b ≠ a := by
          intro hh
          exact hnotin (hh ▸ hb)
        rw [show dataAt ((a, n) :: t) b = dataAt t b by
          simp [dataAt, hget_cons_ne _ _ hba]]
      rw [keys_cons]
      simp only [List.countP_cons]
      rw [ih hndt, hda, List.countP_congr hcongr]

/-- Under the invariant, the number of constructed `data` slots equals the
length of the live region. -/
theorem liveCount_eq {s : QState α} {pre live : List Nat}
    (CA : ChainAux s pre live []) : liveCount s = live.length := by
  unfold liveCount
  rw [countP_heap_eq s.heap CA.keys_nodup]
  rw [CA.perm.countP_eq]
  have h1 : (pre ++ s.before_head :: live ++ []).countP
      (fun a => (dataAt s.heap a).isSome) = live.length := by
    simp only [List.append_nil, List.countP_append, List.countP_cons]
    have hpre : pre.countP (fun a => (dataAt s.heap a).isSome) = 0 := by
      rw [List.countP_eq_zero]
      intro a ha
      rw [CA.dead a (by simp [ha])]
      simp
    have hbh : (dataAt s.heap s.before_head).isSome = false := by
      rw [CA.dead s.before_head (by simp)]
      rfl
    have hlive : live.countP (fun a => (dataAt s.heap a).isSome) = live.length := by
      rw [List.countP_eq_length]
      intro a ha
      exact CA.livedata a ha
    rw [hpre, hlive, hbh]
    simp
  exact h1

theorem countP_map_destroyE_storeBH (l : List Nat) :
    ((l.map Ev.destroyE).countP isStoreBHEv) = 0 := by
  induction l with
  | nil => rfl
  | cons x t ih => simp [List.countP_cons, isStoreBHEv, ih]

theorem countP_flatMap_ids_storeBH (l : List Nat) :
    ((l.flatMap (fun a => [Ev.invokeE a, Ev.destroyE a, Ev.storeBH a])).countP
      isStoreBHEv) = l.length := by
  induction l with
  | nil => rfl
  | cons x t ih =>
      simp [List.flatMap_cons, List.countP_append, List.countP_cons,
        isStoreBHEv, ih]

/-! ## The claims -/

/-- C1: For every sequence of values `0, 1, ..., N-1` pushed sequentially
via `push`/`emplace` and then popped sequentially via `pop` until `pop`
returns false, the consumer receives exactly `0, 1, ..., N-1` in that
order, with no gap, no reorder, and no duplicate; in particular, a single
push of `v` followed by a pop yields `v`. -/
theorem claim1_fifo_roundtrip (N : Nat) :
    (popAllQ (pushSeqTr (initState (α := Nat)) (List.range N)).1 0).2 =
      List.range N ∧
    ∀ v : Nat, (pop (pushSeqTr (initState (α := Nat)) [v]).1 0).2.2.1 = true ∧
      (pop (pushSeqTr (initState (α := Nat)) [v]).1 0).2.2.2 = v := by
  constructor
  · obtain ⟨s', tr, preN, liveNew, hrun, hCA, hvals, _⟩ :=
      pushSeqTr_spec (List.range N) initState [] [] initState_inv
    simp only [List.nil_append] at hCA hvals
    simp only [List.filterMap_nil, List.nil_append] at hvals
    rw [show (pushSeqTr (initState (α := Nat)) (List.range N)).1 = s' by
      rw [hrun]]
    have hfuel : liveNew.length + 1 ≤ s'.heap.length + 1 := by
      have := hCA.heap_length
      simp only [List.append_nil, List.length_append, List.length_cons] at this
      omega
    obtain ⟨hvals2, _⟩ := popAll_spec liveNew s' preN 0 (s'.heap.length + 1)
      hCA hfuel
    unfold popAllQ
    rw [hvals2, hvals]
  · intro v
    obtain ⟨s', tr, preN, liveNew, hrun, hCA, hvals, _⟩ :=
      pushSeqTr_spec [v] initState [] [] initState_inv
    simp only [List.nil_append] at hCA hvals
    simp only [List.filterMap_nil, List.nil_append] at hvals
    have hlen : liveNew.length = 1 := by
      have h1 : (liveNew.filterMap (dataAt s'.heap)).length = liveNew.length :=
        filterMap_all_some_length _ _ (fun a ha => hCA.livedata a ha)
      rw [hvals] at h1
      simpa using h1.symm
    obtain ⟨x, hx⟩ := List.length_eq_one.mp hlen
    subst hx
    have hdx : dataAt s'.heap x = some v := by
      simp only [List.filterMap_cons, List.filterMap_nil] at hvals
      cases hg : dataAt s'.heap x with
      | none => rw [hg] at hvals; simp at hvals
      | some w =>
          rw [hg] at hvals
          simp at hvals
          rw [hvals]
    obtain ⟨v', hv', hpop, _, _⟩ := pop_spec_cons 0 hCA
    have hvv : v' = v := by
      rw [hdx] at hv'
      exact (Option.some_inj.mp hv').symm
    rw [show (pushSeqTr (initState (α := Nat)) [v]).1 = s' by rw [hrun]]
    rw [hpop, hvv]
    exact ⟨rfl, rfl⟩

/-- C2: `pop(out)` returns false if and only if the queue is empty
(`before_head->next` is null); when it returns false, the out-parameter is
left unmodified (and the state untouched), and when it returns true, the
front value is moved into `out`, its `data` slot is destroyed in place, and
`before_head` is advanced to the popped node. -/
theorem claim2_pop_spec (s : QState Nat) (h : Reachable s) (out : Nat) :
    ((pop s out).2.2.1 = false ↔ headAddr s = none) ∧
    (headAddr s = none → pop s out = (s, [], false, out)) ∧
    (∀ x, headAddr s = some x → ∃ v, dataAt s.heap x = some v ∧
      (pop s out).2.2.1 = true ∧ (pop s out).2.2.2 = v ∧
      dataAt (pop s out).1.heap x = none ∧ (pop s out).1.before_head = x) := by
  obtain ⟨pre, live, CA⟩ := reachable_inv h
  cases live with
  | nil =>
      have hhd : headAddr s = none := by
        rw [CA.headAddr_eq]
        rfl
      have hpop := pop_spec_nil out CA
      refine ⟨?_, fun _ => hpop, ?_⟩
      · rw [hpop]
        simp [hhd]
      · intro x hx
        rw [hhd] at hx
        cases hx
  | cons x live' =>
      have hhd : headAddr s = some x := by
        rw [CA.headAddr_eq]
        rfl
      obtain ⟨v, hv, hpop, _, _⟩ := pop_spec_cons out CA
      refine ⟨?_, ?_, ?_⟩
      · rw [hpop]
        simp [hhd]
      · intro hno
        rw [hhd] at hno
        cases hno
      · intro y hy
        rw [hhd] at hy
        have hxy : y = x := (Option.some_inj.mp hy).symm
        subst hxy
        refine ⟨v, hv, by rw [hpop], by rw [hpop], ?_, by rw [hpop]⟩
        rw [hpop]
        show dataAt (setData s y none).heap y = none
        exact dataAt_setData_none_self s y

theorem claim2_pop_spec_witness :
    Reachable exQ1 ∧
    (((pop exQ1 0).2.2.1 = false ↔ headAddr exQ1 = none) ∧
    (headAddr exQ1 = none → pop exQ1 0 = (exQ1, [], false, 0)) ∧
    (∀ x, headAddr exQ1 = some x → ∃ v, dataAt exQ1.heap x = some v ∧
      (pop exQ1 0).2.2.1 = true ∧ (pop exQ1 0).2.2.2 = v ∧
      dataAt (pop exQ1 0).1.heap x = none ∧ (pop exQ1 0).1.before_head = x)) :=
  ⟨reachable_pushSeqTr [5] Reachable.init,
    claim2_pop_spec exQ1 (reachable_pushSeqTr [5] Reachable.init) 0⟩

/-- C8: A range push with an empty range (`first == last`) is a no-op: no
allocation, no node construction, no publication; the queue state and the
allocator call counts are unchanged. -/
theorem claim8_empty_range_noop (s : QState Nat) :
    pushRange s [] = (s, [], true) := rfl

/-- C10: If `T`'s construction throws during a single-element
`push`/`emplace` while recycling a node from the cache (the non-allocating
path), the node is not removed from the cache — `cache_head` is not
advanced and the node's `data` remains unconstructed — so the queue, the
cache chain, and the allocator call counts are all observably unchanged
(only the producer-local `cache_tail` snapshot may have been refilled). -/
theorem claim10_throw_on_cache_path (s : QState Nat)
    (h : refillCT s ≠ s.cache_head) :
    emplace s none = ({ s with cache_tail := refillCT s }, [], false) ∧
    (emplace s none).1.heap = s.heap ∧
    (emplace s none).1.cache_head = s.cache_head ∧
    (emplace s none).1.allocCount = s.allocCount ∧
    (emplace s none).1.deallocCount = s.deallocCount ∧
    (emplace s none).1.tail = s.tail ∧
    (emplace s none).1.before_head = s.before_head ∧
    (emplace s none).1.fresh = s.fresh ∧
    (emplace s none).2.1 = [] ∧ (emplace s none).2.2 = false ∧
    (∀ a, dataAt (emplace s none).1.heap a = dataAt s.heap a) := by
  have hemp : emplace s none = ({ s with cache_tail := refillCT s }, [], false) := by
    simp only [emplace, make_node_fail_cache s h]
  rw [hemp]
  exact ⟨rfl, rfl, rfl, rfl, rfl, rfl, rfl, rfl, rfl, rfl, fun a => rfl⟩

theorem claim10_throw_on_cache_path_witness :
    refillCT exCache2 ≠ exCache2.cache_head ∧
    (emplace exCache2 none =
      ({ exCache2 with cache_tail := refillCT exCache2 }, [], false) ∧
    (emplace exCache2 none).1.heap = exCache2.heap ∧
    (emplace exCache2 none).1.cache_head = exCache2.cache_head ∧
    (emplace exCache2 none).1.allocCount = exCache2.allocCount ∧
    (emplace exCache2 none).1.deallocCount = exCache2.deallocCount ∧
    (emplace exCache2 none).1.tail = exCache2.tail ∧
    (emplace exCache2 none).1.before_head = exCache2.before_head ∧
    (emplace exCache2 none).1.fresh = exCache2.fresh ∧
    (emplace exCache2 none).2.1 = [] ∧ (emplace exCache2 none).2.2 = false ∧
    (∀ a, dataAt (emplace exCache2 none).1.heap a = dataAt exCache2.heap a)) :=
  ⟨by decide, claim10_throw_on_cache_path exCache2 (by decide)⟩

/-- C3 (counterexample): on the reachable two-element queue `exQ2`,
`consume_all` performs two `before_head` stores — one per drained element —
not a single store at the end of the operation. -/
theorem claim3_counterexample :
    (consume_all exQ2).2.countP isStoreBHEv = 2 ∧
    ¬ (consume_all exQ2).2.countP isStoreBHEv = 1 :=
  ⟨by decide, by decide⟩

/-- C3 (amended): during `clear()`, the store to `before_head` is performed
exactly once, at the end, after all drained nodes' data have been
destroyed; during `consume_all(fn)`, however, `before_head` is stored once
per drained element — immediately after `fn` is invoked on the value and
the value is destroyed — so `consume_all` on an `n`-element queue performs
`n` stores to `before_head`, not one. -/
theorem claim3_before_head_stores (s : QState Nat) (h : Reachable s) :
    (∃ l, (clear s).2 = (liveAddrs s).map Ev.destroyE ++ [Ev.storeBH l] ∧
      (clear s).2.countP isStoreBHEv = 1 ∧
      (clear s).1.before_head = l) ∧
    (consume_all s).2 =
      (liveAddrs s).flatMap (fun a => [Ev.invokeE a, Ev.destroyE a, Ev.storeBH a]) ∧
    (consume_all s).2.countP isStoreBHEv = liveCount s := by
  obtain ⟨pre, live, CA⟩ := reachable_inv h
  have hla := CA.liveAddrs_eq
  obtain ⟨s2, l, pre2, hlast, hclear, _, hbh2, _, _, _⟩ := clear_spec CA
  obtain ⟨s3, l3, pre3, _, hcons, _, _, _, _, _⟩ := consume_all_spec CA
  refine ⟨⟨l, ?_, ?_, ?_⟩, ?_, ?_⟩
  · rw [hla, hclear]
  · rw [hclear]
    show (live.map Ev.destroyE ++ [Ev.storeBH l]).countP isStoreBHEv = 1
    simp [List.countP_append, countP_map_destroyE_storeBH, List.countP_cons,
      isStoreBHEv]
  · rw [hclear]
    exact hbh2
  · rw [hla, hcons]
  · rw [hcons]
    show (live.flatMap
        (fun a => [Ev.invokeE a, Ev.destroyE a, Ev.storeBH a])).countP
        isStoreBHEv = liveCount s
    rw [liveCount_eq CA, countP_flatMap_ids_storeBH]

theorem claim3_before_head_stores_witness :
    Reachable exQ2 ∧
    ((∃ l, (clear exQ2).2 = (liveAddrs exQ2).map Ev.destroyE ++ [Ev.storeBH l] ∧
      (clear exQ2).2.countP isStoreBHEv = 1 ∧
      (clear exQ2).1.before_head = l) ∧
    (consume_all exQ2).2 =
      (liveAddrs exQ2).flatMap
        (fun a => [Ev.invokeE a, Ev.destroyE a, Ev.storeBH a]) ∧
    (consume_all exQ2).2.countP isStoreBHEv = liveCount exQ2) :=
  ⟨reachable_pushSeqTr [10, 20] Reachable.init,
    claim3_before_head_stores exQ2 (reachable_pushSeqTr [10, 20] Reachable.init)⟩

/-- C5: For every reachable queue state, the destructor destroys the data
of each live element exactly once, never destroys the data of cache or
sentinel nodes (those whose `data` slot is unconstructed), deallocates
every node of the chain exactly once, and afterwards the allocator's
allocation count equals its deallocation count. -/
theorem claim5_dtor_balance (s : QState Nat) (h : Reachable s) :
    (∀ a, (dataAt s.heap a).isSome = true →
      (dtor s).2.count (Ev.destroyE a) = 1) ∧
    (∀ a, dataAt s.heap a = none → (dtor s).2.count (Ev.destroyE a) = 0) ∧
    (∀ a, a ∈ keys s.heap → (dtor s).2.count (Ev.deallocE a) = 1) ∧
    (∀ a, a ∉ keys s.heap → (dtor s).2.count (Ev.deallocE a) = 0) ∧
    (dtor s).1.heap = [] ∧
    (dtor s).1.allocCount = (dtor s).1.deallocCount := by
  obtain ⟨pre, live, CA⟩ := reachable_inv h
  obtain ⟨s2, hdtor, hheap, hbal⟩ := dtor_spec CA
  have hnd : ((pre ++ [s.before_head]) ++ live).Nodup := by
    have := CA.nd
    simp only [List.append_nil] at this
    simp only [List.append_assoc, List.cons_append, List.nil_append] at this ⊢
    exact this
  have hnd1 : (pre ++ [s.before_head]).Nodup := hnd.of_append_left
  have hnd2 : live.Nodup := hnd.of_append_right
  have hdisj : ∀ a ∈ pre ++ [s.before_head], a ∉ live := fun a ha =>
    List.disjoint_of_nodup_append hnd ha
  have hcount : ∀ a, (dtor s).2.count (Ev.destroyE a) = live.count a := by
    intro a
    rw [hdtor]
    show ((pre ++ [s.before_head]).map Ev.deallocE ++
      live.flatMap (fun b => [Ev.destroyE b, Ev.deallocE b])).count
        (Ev.destroyE a) = live.count a
    rw [List.count_append, count_map_deallocE_destroyE, count_flatMap_destroy]
    omega
  have hcountD : ∀ a, (dtor s).2.count (Ev.deallocE a) =
      (pre ++ [s.before_head]).count a + live.count a := by
    intro a
    rw [hdtor]
    show ((pre ++ [s.before_head]).map Ev.deallocE ++
      live.flatMap (fun b => [Ev.destroyE b, Ev.deallocE b])).count
        (Ev.deallocE a) = (pre ++ [s.before_head]).count a + live.count a
    rw [List.count_append, count_map_deallocE_deallocE, count_flatMap_dealloc]
  refine ⟨?_, ?_, ?_, ?_, ?_, ?_⟩
  · intro a ha
    rw [hcount]
    exact List.count_eq_one_of_mem hnd2 ((CA.isSome_data_iff a).mp ha)
  · intro a ha
    rw [hcount, List.count_eq_zero]
    intro hmem
    have hs := CA.livedata a hmem
    rw [ha] at hs
    simp at hs
  · intro a ha
    rw [hcountD]
    have hmem : a ∈ pre ++ s.before_head :: live := (CA.mem_keys_iff a).mp ha
    by_cases hl : a ∈ live
    · have h0 : (pre ++ [s.before_head]).count a = 0 := by
        rw [List.count_eq_zero]
        intro hm
        exact hdisj a hm hl
      rw [h0, List.count_eq_one_of_mem hnd2 hl]
    · have hmem1 : a ∈ pre ++ [s.before_head] := by
        simp only [List.mem_append, List.mem_cons, List.mem_singleton] at hmem ⊢
        rcases hmem with hc | hc | hc
        · exact Or.inl hc
        · exact Or.inr (Or.inl hc)
        · exact absurd hc hl
      rw [List.count_eq_one_of_mem hnd1 hmem1,
        List.count_eq_zero.mpr (fun hm => hl hm)]
  · intro a ha
    rw [hcountD]
    have hnm : a ∉ pre ++ s.before_head :: live := fun hm =>
      ha ((CA.mem_keys_iff a).mpr hm)
    have h1 : (pre ++ [s.before_head]).count a = 0 := by
      rw [List.count_eq_zero]
      intro hm
      apply hnm
      simp only [List.mem_append, List.mem_cons, List.mem_singleton] at hm ⊢
      tauto
    have h2 : live.count a = 0 := by
      rw [List.count_eq_zero]
      intro hm
      exact hnm (by simp [hm])
    rw [h1, h2]
  · rw [hdtor]
    exact hheap
  · rw [hdtor]
    exact hbal

theorem claim5_dtor_balance_witness :
    Reachable exQ1 ∧
    ((∀ a, (dataAt exQ1.heap a).isSome = true →
      (dtor exQ1).2.count (Ev.destroyE a) = 1) ∧
    (∀ a, dataAt exQ1.heap a = none → (dtor exQ1).2.count (Ev.destroyE a) = 0) ∧
    (∀ a, a ∈ keys exQ1.heap → (dtor exQ1).2.count (Ev.deallocE a) = 1) ∧
    (∀ a, a ∉ keys exQ1.heap → (dtor exQ1).2.count (Ev.deallocE a) = 0) ∧
    (dtor exQ1).1.heap = [] ∧
    (dtor exQ1).1.allocCount = (dtor exQ1).1.deallocCount) :=
  ⟨reachable_pushSeqTr [5] Reachable.init,
    claim5_dtor_balance exQ1 (reachable_pushSeqTr [5] Reachable.init)⟩

/-- C6: For every reachable queue state, the queue is empty iff
`before_head == tail`, equivalently iff `before_head->next == nullptr`
(`head_() == nullptr`), equivalently iff no published element remains
unconsumed (the live region is empty). -/
theorem claim6_empty_characterization (s : QState Nat) (h : Reachable s) :
    (empty s = true ↔ s.before_head = s.tail) ∧
    (empty s = true ↔ headAddr s = none) ∧
    (empty s = true ↔ liveCount s = 0) := by
  obtain ⟨pre, live, CA⟩ := reachable_inv h
  have hlc := liveCount_eq CA
  cases live with
  | nil =>
      have hhd : headAddr s = none := by
        rw [CA.headAddr_eq]
        rfl
      have hbt : s.before_head = s.tail := by
        have := CA.lst
        simpa using this
      have hemp : empty s = true := by
        simp [empty, hhd]
      exact ⟨by simp [hemp, hbt], by simp [hemp, hhd], by simp [hemp, hlc]⟩
  | cons x live' =>
      have hhd : headAddr s = some x := by
        rw [CA.headAddr_eq]
        rfl
      have hemp : empty s = false := by
        simp [empty, hhd]
      have hnd3 : (s.before_head :: x :: live').Nodup := by
        have h1 := CA.nd
        have h2 : (pre ++ s.before_head :: x :: live').Nodup := by simpa using h1
        exact h2.of_append_right
      have hbhnotin : s.before_head ∉ x :: live' := (List.nodup_cons.mp hnd3).1
      have htailmem : s.tail ∈ x :: live' := by
        have hl := CA.lst
        rw [List.getLast?_cons_cons] at hl
        exact mem_of_getLast?_eq hl
      have hbt : s.before_head ≠ s.tail := fun he => hbhnotin (he ▸ htailmem)
      refine ⟨?_, ?_, ?_⟩
      · simp [hemp, hbt]
      · simp [hemp, hhd]
      · simp [hemp, hlc]

theorem claim6_empty_characterization_witness :
    Reachable exQ2 ∧
    ((empty exQ2 = true ↔ exQ2.before_head = exQ2.tail) ∧
    (empty exQ2 = true ↔ headAddr exQ2 = none) ∧
    (empty exQ2 = true ↔ liveCount exQ2 = 0)) :=
  ⟨reachable_pushSeqTr [10, 20] Reachable.init,
    claim6_empty_characterization exQ2 (reachable_pushSeqTr [10, 20] Reachable.init)⟩

/-- C4: If element construction throws partway through a range push, every
node already staged in the private insert chain has its data destroyed and
is deallocated (exactly once each, and it is no longer owned by the queue),
the failure propagates to the caller, and the queue's observable contents
are unchanged: no node is published to `tail->next`, `tail` and
`before_head` are not moved, and the live region's addresses and values are
untouched. -/
theorem claim4_range_push_exception (s : QState Nat) (good : List Nat)
    (rest : List (Option Nat)) (h : Reachable s) :
    (pushRange s (good.map some ++ none :: rest)).2.2 = false ∧
    (pushRange s (good.map some ++ none :: rest)).1.before_head = s.before_head ∧
    (pushRange s (good.map some ++ none :: rest)).1.tail = s.tail ∧
    nextAt (pushRange s (good.map some ++ none :: rest)).1.heap s.tail = none ∧
    liveAddrs (pushRange s (good.map some ++ none :: rest)).1 = liveAddrs s ∧
    liveVals (pushRange s (good.map some ++ none :: rest)).1 = liveVals s ∧
    (∀ e ∈ (pushRange s (good.map some ++ none :: rest)).2.1,
      isStoreBHEv e = false ∧ isStoreTailNextEv e = false) ∧
    (∃ stgNew : List Nat, stgNew.length = good.length ∧
      ∀ a ∈ stgNew,
        (pushRange s (good.map some ++ none :: rest)).2.1.count
          (Ev.destroyE a) = 1 ∧
        (pushRange s (good.map some ++ none :: rest)).2.1.count
          (Ev.deallocE a) = 1 ∧
        a ∉ keys (pushRange s (good.map some ++ none :: rest)).1.heap) := by
  obtain ⟨pre, live, CA⟩ := reachable_inv h
  obtain ⟨s', tr, stgNew, pre', hpush, hCA', hlen, hbh, htl, hdata, htr, hcnt⟩ :=
    pushRange_fail good rest CA
  have h1 : (pushRange s (good.map some ++ none :: rest)).1 = s' := by rw [hpush]
  have h2 : (pushRange s (good.map some ++ none :: rest)).2.1 = tr := by
    rw [hpush]
  have h3 : (pushRange s (good.map some ++ none :: rest)).2.2 = false := by
    rw [hpush]
  refine ⟨h3, ?_, ?_, ?_, ?_, ?_, ?_, stgNew, hlen, ?_⟩
  · rw [h1]
    exact hbh
  · rw [h1]
    exact htl
  · rw [h1, ← htl]
    exact hCA'.tail_next_none
  · rw [h1, hCA'.liveAddrs_eq, CA.liveAddrs_eq]
  · rw [h1, hCA'.liveVals_eq, CA.liveVals_eq]
    exact List.filterMap_congr (fun a ha => hdata a ha)
  · rw [h2]
    exact htr
  · intro a ha
    rw [h1, h2]
    exact hcnt a ha

theorem claim4_range_push_exception_witness :
    Reachable (initState (α := Nat)) ∧
    ((pushRange (initState (α := Nat)) ([1].map some ++ none :: [])).2.2 = false ∧
    (pushRange (initState (α := Nat)) ([1].map some ++ none :: [])).1.before_head =
      (initState (α := Nat)).before_head ∧
    (pushRange (initState (α := Nat)) ([1].map some ++ none :: [])).1.tail =
      (initState (α := Nat)).tail ∧
    nextAt (pushRange (initState (α := Nat)) ([1].map some ++ none :: [])).1.heap
      (initState (α := Nat)).tail = none ∧
    liveAddrs (pushRange (initState (α := Nat)) ([1].map some ++ none :: [])).1 =
      liveAddrs (initState (α := Nat)) ∧
    liveVals (pushRange (initState (α := Nat)) ([1].map some ++ none :: [])).1 =
      liveVals (initState (α := Nat)) ∧
    (∀ e ∈ (pushRange (initState (α := Nat)) ([1].map some ++ none :: [])).2.1,
      isStoreBHEv e = false ∧ isStoreTailNextEv e = false) ∧
    (∃ stgNew : List Nat, stgNew.length = ([1] : List Nat).length ∧
      ∀ a ∈ stgNew,
        (pushRange (initState (α := Nat)) ([1].map some ++ none :: [])).2.1.count
          (Ev.destroyE a) = 1 ∧
        (pushRange (initState (α := Nat)) ([1].map some ++ none :: [])).2.1.count
          (Ev.deallocE a) = 1 ∧
        a ∉ keys (pushRange (initState (α := Nat))
          ([1].map some ++ none :: [])).1.heap)) :=
  ⟨Reachable.init, claim4_range_push_exception initState [1] [] Reachable.init⟩

/-- C7: node acquisition follows the cache-first algorithm: the producer
refills `cache_tail` from `before_head` only when it has caught up with
`cache_head`; if the refilled cache is non-empty, `T` is constructed in the
cached node and `cache_head` advances to that node's `next`, with no
allocation; only when the cache is still empty after the refill is a fresh
node allocated. Consequently, a run of pushes no longer than the warm cache
performs zero allocations. -/
theorem claim7_cache_first_acquisition (s : QState Nat) (h : Reachable s) :
    (∀ v : Nat, refillCT s ≠ s.cache_head →
      ∃ s4 b, nextAt s.heap s.cache_head = some b ∧
        make_node s (some v) =
          (s4, [Ev.constructE s.cache_head], some s.cache_head) ∧
        s4.cache_head = b ∧ dataAt s4.heap s.cache_head = some v ∧
        s4.allocCount = s.allocCount) ∧
    (∀ v : Nat, refillCT s = s.cache_head →
      ∃ s4, make_node s (some v) =
        (s4, [Ev.allocE s.fresh, Ev.constructE s.fresh], some s.fresh) ∧
        s4.allocCount = s.allocCount + 1) ∧
    (∀ vals : List Nat, vals.length ≤ cacheAvail s →
      (pushSeqTr s vals).2.countP isAllocEv = 0) := by
  obtain ⟨pre, live, CA⟩ := reachable_inv h
  refine ⟨?_, ?_, ?_⟩
  · intro v hne
    cases pre with
    | nil => exact absurd (refillCT_eq_of_nil CA) hne
    | cons q pre' =>
        have hq : q = s.cache_head := by
          have hh := CA.hd
          simp only [List.cons_append, List.head?_cons] at hh
          exact Option.some_inj.mp hh
        subst hq
        obtain ⟨s4, hmk, _, hdx, _, _, _, _, _, halloc, _, _, _, y, hny, hch⟩ :=
          @make_node_recycle _ _ _ _ _ v CA
        exact ⟨s4, y, hny, hmk, hch, hdx, halloc⟩
  · intro v heq
    cases pre with
    | nil =>
        obtain ⟨s4, hmk, _, _, _, _, _, _, _, halloc, _, _, _⟩ :=
          @make_node_alloc _ _ _ _ v CA
        exact ⟨s4, hmk, halloc⟩
    | cons q pre' => exact absurd heq (refillCT_ne_of_cons CA)
  · intro vals hlen
    rw [cacheAvail_eq CA] at hlen
    obtain ⟨s', tr, preN, liveNew, hrun, _, _, hno⟩ :=
      pushSeqTr_spec vals s pre live CA
    have h2 : (pushSeqTr s vals).2 = tr := by rw [hrun]
    rw [h2]
    exact (hno hlen).1

theorem claim7_cache_first_acquisition_witness :
    Reachable exCache2 ∧
    ((∀ v : Nat, refillCT exCache2 ≠ exCache2.cache_head →
      ∃ s4 b, nextAt exCache2.heap exCache2.cache_head = some b ∧
        make_node exCache2 (some v) =
          (s4, [Ev.constructE exCache2.cache_head], some exCache2.cache_head) ∧
        s4.cache_head = b ∧ dataAt s4.heap exCache2.cache_head = some v ∧
        s4.allocCount = exCache2.allocCount) ∧
    (∀ v : Nat, refillCT exCache2 = exCache2.cache_head →
      ∃ s4, make_node exCache2 (some v) =
        (s4, [Ev.allocE exCache2.fresh, Ev.constructE exCache2.fresh],
          some exCache2.fresh) ∧
        s4.allocCount = exCache2.allocCount + 1) ∧
    (∀ vals : List Nat, vals.length ≤ cacheAvail exCache2 →
      (pushSeqTr exCache2 vals).2.countP isAllocEv = 0)) := by
  have hre : Reachable exCache2 :=
    reachable_popAll (exQ2.heap.length + 1) exQ2 0
      (reachable_pushSeqTr [10, 20] Reachable.init)
  exact ⟨hre, claim7_cache_first_acquisition exCache2 hre⟩

/-- C9: a range push stages its batch privately — the staged nodes are
linked with relaxed stores, no `before_head`/`tail->next` store happens
during staging, and the consumer-visible live region is unchanged while the
private chain is built — and then a single `tail->next` store, the last
event of the operation, makes the whole batch reachable at once. -/
theorem claim9_atomic_batch_publication (s : QState Nat) (h : Reachable s)
    (w : Nat) (vals : List Nat) :
    ∃ (s4 : QState Nat) (tr0 : List Ev) (ih0 : Nat) (sMid : QState Nat)
      (trS : List Ev) (it : Nat) (stgNew : List Nat),
      make_node s (some w) = (s4, tr0, some ih0) ∧
      stageLoop s4 ih0 (vals.map some) = (sMid, trS, some it) ∧
      pushRange s (some w :: vals.map some) =
        ({ setNext sMid sMid.tail (some ih0) with tail := it },
          tr0 ++ trS ++ [Ev.storeTailNext ih0], true) ∧
      liveAddrs sMid = liveAddrs s ∧
      headAddr sMid = headAddr s ∧
      sMid.before_head = s.before_head ∧
      liveAddrs ({ setNext sMid sMid.tail (some ih0) with tail := it }) =
        liveAddrs s ++ ih0 :: stgNew ∧
      (ih0 :: stgNew).length = vals.length + 1 ∧
      (∀ e ∈ tr0 ++ trS, isStoreBHEv e = false ∧ isStoreTailNextEv e = false) ∧
      (tr0 ++ trS ++ [Ev.storeTailNext ih0]).countP isStoreTailNextEv = 1 ∧
      (tr0 ++ trS ++ [Ev.storeTailNext ih0]).getLast? =
        some (Ev.storeTailNext ih0) := by
  obtain ⟨pre, live, CA⟩ := reachable_inv h
  obtain ⟨s4, tr0, ih0, sMid, trS, it, stgNew, pre', hmk, hloop, hpush, hCA',
    hlen, hmidla, hmidhd, hmidbh, hmidtl, hla, hshared⟩ := pushRange_ok w vals CA
  refine ⟨s4, tr0, ih0, sMid, trS, it, stgNew, hmk, hloop, hpush, hmidla,
    hmidhd, hmidbh, hla, hlen, hshared, ?_, ?_⟩
  · rw [List.countP_append]
    have h0 : (tr0 ++ trS).countP isStoreTailNextEv = 0 := by
      rw [List.countP_eq_zero]
      intro e he
      simp [(hshared e he).2]
    rw [h0]
    simp [List.countP_cons, isStoreTailNextEv]
  · exact List.getLast?_concat _

theorem claim9_atomic_batch_publication_witness :
    Reachable (initState (α := Nat)) ∧
    (∃ (s4 : QState Nat) (tr0 : List Ev) (ih0 : Nat) (sMid : QState Nat)
      (trS : List Ev) (it : Nat) (stgNew : List Nat),
      make_node (initState (α := Nat)) (some 5) = (s4, tr0, some ih0) ∧
      stageLoop s4 ih0 ([6].map some) = (sMid, trS, some it) ∧
      pushRange (initState (α := Nat)) (some 5 :: [6].map some) =
        ({ setNext sMid sMid.tail (some ih0) with tail := it },
          tr0 ++ trS ++ [Ev.storeTailNext ih0], true) ∧
      liveAddrs sMid = liveAddrs (initState (α := Nat)) ∧
      headAddr sMid = headAddr (initState (α := Nat)) ∧
      sMid.before_head = (initState (α := Nat)).before_head ∧
      liveAddrs ({ setNext sMid sMid.tail (some ih0) with tail := it }) =
        liveAddrs (initState (α := Nat)) ++ ih0 :: stgNew ∧
      (ih0 :: stgNew).length = ([6] : List Nat).length + 1 ∧
      (∀ e ∈ tr0 ++ trS, isStoreBHEv e = false ∧ isStoreTailNextEv e = false) ∧
      (tr0 ++ trS ++ [Ev.storeTailNext ih0]).countP isStoreTailNextEv = 1 ∧
      (tr0 ++ trS ++ [Ev.storeTailNext ih0]).getLast? =
        some (Ev.storeTailNext ih0)) :=
  ⟨Reachable.init,
    claim9_atomic_batch_publication initState Reachable.init 5 [6]⟩

end Lockfree
